import Mathlib

/-!
Shallow embedding of the autokerning core (glyph overlap metric, separable
Gaussian blur, kern-pair search, and the adaptive kernel-width calibration
loop) together with proofs settling the frozen claims about it.

Modelling conventions:
* JavaScript `number` arithmetic is modelled exactly over `ℚ` (the claims are
  about the algorithms, not about float rounding).
* Glyph metrics (`advance`, `bboxOffsetX`) and kern offsets are modelled as
  integers (pixel units), under which the source's `Math.floor` on the left
  pixel index is the identity.
* Flat typed-array reads `data[i] ?? 0` are modelled by `List.getD _ i 0`.
* `Math.exp` is transcendental and is modelled by an explicit function
  parameter `mexp : ℚ → ℚ`; theorems that depend on its shape carry the
  positivity/monotonicity hypotheses actually used, and concrete witnesses
  instantiate `mexp` with a computable positive strictly-monotone function.
* The blur's module-level kernel-coefficient cache is modelled by explicit
  state passing: `gaussianBlur` consumes and returns the cache.
-/

namespace AutoKern

/-- A dense row-major grid of coverage values (`ndarray` bitmap in the source). -/
structure Bitmap where
  width : Nat
  height : Nat
  data : List ℚ
deriving DecidableEq

/-- Flat typed-array read `data[i] ?? 0`. -/
def Bitmap.read (b : Bitmap) (i : Nat) : ℚ := b.data.getD i 0

/-- A rendered glyph: bitmap plus metrics (`Glyph` in glyph.ts, with the
`bboxOffsetX` field installed by `setGlyphBboxOffset` in overlap.ts). -/
structure Glyph where
  width : Nat
  height : Nat
  advance : Int
  bboxOffsetX : Int
  bitmap : Bitmap
deriving DecidableEq

/-- Offset where the left glyph is positioned relative to the right glyph
(`lOffset` in overlap.ts). -/
def lOffsetOf (left right : Glyph) (kern : Int) : Int :=
  -(left.advance + left.bboxOffsetX) + right.bboxOffsetX - kern

/-- Start of the x intersection range (`xStart` in overlap.ts). -/
def interStart (left right : Glyph) (kern : Int) : Int :=
  max 0 (lOffsetOf left right kern)

/-- End of the x intersection range (`xEnd` in overlap.ts). -/
def interEnd (left right : Glyph) (kern : Int) : Int :=
  min (right.width : Int) (lOffsetOf left right kern + left.width)

/-- The right pixel value at intersection column `x` (`rVal` in overlap.ts). -/
def rValAt (right : Glyph) (y : Nat) (x : Int) : ℚ :=
  if 0 ≤ x ∧ x < (right.width : Int) ∧ y < right.height then
    right.bitmap.read (y * right.width + x.toNat)
  else 0

/-- The left pixel value at intersection column `x` (`lVal` in overlap.ts);
the source's `Math.floor` on `x - lOffset` is the identity for integer
metrics. -/
def lValAt (left right : Glyph) (kern : Int) (y : Nat) (x : Int) : ℚ :=
  if 0 ≤ x - lOffsetOf left right kern ∧
      x - lOffsetOf left right kern < (left.width : Int) ∧ y < left.height then
    left.bitmap.read (y * left.width + (x - lOffsetOf left right kern).toNat)
  else 0

/-- One accumulated term of the overlap sum: `lVal*lVal*rVal*rVal`, exactly
as in the inner loop of overlap.ts. -/
def overlapTerm (left right : Glyph) (kern : Int) (y : Nat) (x : Int) : ℚ :=
  lValAt left right kern y x * lValAt left right kern y x *
    rValAt right y x * rValAt right y x

/-- Pixel overlap between two glyphs at a kern offset (`overlap` in
overlap.ts): the y loop runs over `left.height`, the x loop over the
intersection range, accumulating squared products. -/
def overlap (left right : Glyph) (kern : Int) : ℚ :=
  if interEnd left right kern - interStart left right kern ≤ 0 then 0
  else
    ((List.range left.height).map (fun y =>
      ((List.range (interEnd left right kern - interStart left right kern).toNat).map
        (fun j => overlapTerm left right kern y (interStart left right kern + j))).sum)).sum

/-- Modelled from the spec's words for claim C6: the same accumulation, but
with the y loop running over `[0, max(left.height, right.height))` as the
spec sentence states. -/
def overlapSpecC6 (left right : Glyph) (kern : Int) : ℚ :=
  ((List.range (max left.height right.height)).map (fun y =>
    ((List.range (interEnd left right kern - interStart left right kern).toNat).map
      (fun j => overlapTerm left right kern y (interStart left right kern + j))).sum)).sum

/-- Every term of the overlap sum is a square, hence non-negative. -/
lemma overlapTerm_nonneg (left right : Glyph) (kern : Int) (y : Nat) (x : Int) :
    0 ≤ overlapTerm left right kern y x := by
  unfold overlapTerm
  have : lValAt left right kern y x * lValAt left right kern y x *
      rValAt right y x * rValAt right y x =
      (lValAt left right kern y x * rValAt right y x) ^ 2 := by ring
  rw [this]
  positivity

/-- The overlap metric is non-negative on all inputs. -/
lemma overlap_nonneg (left right : Glyph) (kern : Int) :
    0 ≤ overlap left right kern := by
  unfold overlap
  split
  · exact le_refl 0
  · apply List.sum_nonneg
    intro q hq
    obtain ⟨y, _, rfl⟩ := List.mem_map.1 hq
    apply List.sum_nonneg
    intro r hr
    obtain ⟨j, _, rfl⟩ := List.mem_map.1 hr
    exact overlapTerm_nonneg _ _ _ _ _

/-- For rows at or beyond the left glyph's height every term vanishes,
because the left value is treated as 0 outside the left glyph's bounds. -/
lemma overlapTerm_eq_zero_of_le_height (left right : Glyph) (kern : Int)
    (y : Nat) (x : Int) (hy : left.height ≤ y) :
    overlapTerm left right kern y x = 0 := by
  have hl : lValAt left right kern y x = 0 := by
    unfold lValAt
    have : ¬ (0 ≤ x - lOffsetOf left right kern ∧
        x - lOffsetOf left right kern < (left.width : Int) ∧ y < left.height) := by
      rintro ⟨-, -, h⟩; omega
    rw [if_neg this]
  unfold overlapTerm
  rw [hl]
  ring

/-- The value list of the loop `for (let k = a; k <= b; k += s)` (used with
`s = max(1, KERN_STEP) ≥ 1` by every kern sampling loop). -/
def ascRange (a b s : Int) : List Int :=
  if a ≤ b then (List.range ((b - a).toNat / s.toNat + 1)).map (fun i : Nat => a + (i : Int) * s)
  else []

/-- The value list of the loop `for (let k = a; k >= b; k -= s)` with `s ≥ 1`. -/
def descRange (a b s : Int) : List Int :=
  if b ≤ a then (List.range ((a - b).toNat / s.toNat + 1)).map (fun i : Nat => a - (i : Int) * s)
  else []

/-- The ascending loop embedding satisfies the loop's step equation: one test
of the bound, then the body at `a`, then the same loop from `a + s`. -/
lemma ascRange_unroll (a b s : Int) (hs : 1 ≤ s) :
    ascRange a b s = if a ≤ b then a :: ascRange (a + s) b s else [] := by
  unfold ascRange
  by_cases hab : a ≤ b
  · rw [if_pos hab, if_pos hab]
    have hsn : 0 < s.toNat := by omega
    by_cases h2 : a + s ≤ b
    · rw [if_pos h2]
      have hm : (b - a).toNat = (b - (a + s)).toNat + s.toNat := by omega
      have hcount : (b - a).toNat / s.toNat = (b - (a + s)).toNat / s.toNat + 1 := by
        rw [hm, Nat.add_div_right _ hsn]
      rw [hcount, List.range_succ_eq_map, List.map_cons, List.map_map]
      refine List.cons_eq_cons.mpr ⟨by push_cast; ring, ?_⟩
      apply List.map_congr_left
      intro i _
      simp only [Function.comp_apply]
      push_cast
      ring
    · rw [if_neg h2]
      have hz : (b - a).toNat / s.toNat = 0 := Nat.div_eq_of_lt (by omega)
      rw [hz]
      rw [show List.range 1 = [0] from rfl]
      simp
  · rw [if_neg hab, if_neg hab]

/-- The descending loop embedding satisfies the loop's step equation. -/
lemma descRange_unroll (a b s : Int) (hs : 1 ≤ s) :
    descRange a b s = if b ≤ a then a :: descRange (a - s) b s else [] := by
  unfold descRange
  by_cases hab : b ≤ a
  · rw [if_pos hab, if_pos hab]
    have hsn : 0 < s.toNat := by omega
    by_cases h2 : b ≤ a - s
    · rw [if_pos h2]
      have hm : (a - b).toNat = (a - s - b).toNat + s.toNat := by omega
      have hcount : (a - b).toNat / s.toNat = (a - s - b).toNat / s.toNat + 1 := by
        rw [hm, Nat.add_div_right _ hsn]
      rw [hcount, List.range_succ_eq_map, List.map_cons, List.map_map]
      refine List.cons_eq_cons.mpr ⟨by push_cast; ring, ?_⟩
      apply List.map_congr_left
      intro i _
      simp only [Function.comp_apply]
      push_cast
      ring
    · rw [if_neg h2]
      have hz : (a - b).toNat / s.toNat = 0 := Nat.div_eq_of_lt (by omega)
      rw [hz]
      rw [show List.range 1 = [0] from rfl]
      simp
  · rw [if_neg hab, if_neg hab]

/-- Every value visited by the ascending loop lies within `[a, b]`. -/
lemma ascRange_mem (a b s : Int) (hs : 1 ≤ s) (k : Int) (hk : k ∈ ascRange a b s) :
    a ≤ k ∧ k ≤ b := by
  unfold ascRange at hk
  split at hk
  · obtain ⟨i, hi, rfl⟩ := List.mem_map.1 hk
    rw [List.mem_range] at hi
    have hsn : 0 < s.toNat := by omega
    have hmul : i * s.toNat ≤ (b - a).toNat := (Nat.le_div_iff_mul_le hsn).1 (by omega)
    have hcast : (i : Int) * s ≤ b - a := by
      have h1 : ((i * s.toNat : Nat) : Int) ≤ (((b - a).toNat : Nat) : Int) := by
        exact_mod_cast hmul
      have h2 : ((s.toNat : Nat) : Int) = s := Int.toNat_of_nonneg (by omega)
      have h3 : (((b - a).toNat : Nat) : Int) = b - a := Int.toNat_of_nonneg (by omega)
      push_cast at h1
      rw [h2] at h1
      omega
    have hnn : 0 ≤ (i : Int) * s := by positivity
    omega
  · exact absurd hk (List.not_mem_nil k)

/-- Every value visited by the descending loop lies within `[b, a]`. -/
lemma descRange_mem (a b s : Int) (hs : 1 ≤ s) (k : Int) (hk : k ∈ descRange a b s) :
    b ≤ k ∧ k ≤ a := by
  unfold descRange at hk
  split at hk
  · obtain ⟨i, hi, rfl⟩ := List.mem_map.1 hk
    rw [List.mem_range] at hi
    have hsn : 0 < s.toNat := by omega
    have hmul : i * s.toNat ≤ (a - b).toNat := (Nat.le_div_iff_mul_le hsn).1 (by omega)
    have hcast : (i : Int) * s ≤ a - b := by
      have h1 : ((i * s.toNat : Nat) : Int) ≤ (((a - b).toNat : Nat) : Int) := by
        exact_mod_cast hmul
      have h2 : ((s.toNat : Nat) : Int) = s := Int.toNat_of_nonneg (by omega)
      push_cast at h1
      rw [h2] at h1
      omega
    have hnn : 0 ≤ (i : Int) * s := by positivity
    omega
  · exact absurd hk (List.not_mem_nil k)

/-- The ascending loop visits strictly increasing values. -/
lemma ascRange_pairwise (a b s : Int) (hs : 1 ≤ s) :
    (ascRange a b s).Pairwise (· < ·) := by
  unfold ascRange
  split
  · rw [List.pairwise_map]
    apply (List.pairwise_lt_range _).imp
    intro i j hij
    have : (i : Int) * s < j * s := by
      apply mul_lt_mul_of_pos_right _ (by omega)
      exact_mod_cast hij
    omega
  · exact List.Pairwise.nil

/-- The blur kernel-coefficient cache (`gaussianBlur._kernelCache` in
blur.ts), keyed by radius, modelled as explicit state. -/
def Cache : Type := List (Nat × List ℚ)

/-- Cache lookup by radius (`kernelCache[radius]`). -/
def cacheLookup (c : Cache) (radius : Nat) : Option (List ℚ) :=
  ((List.find? (fun p => p.1 == radius) c)).map (fun p => p.2)

/-- Build the normalized 1-D Gaussian kernel for a radius and sigma, exactly
as in blur.ts: `tmp[i] = exp(-(x*x)/(2*sigma*sigma))` for `x = i - radius`,
then divide by the accumulated sum. `Math.exp` is the parameter `mexp`. -/
def buildKernel (mexp : ℚ → ℚ) (radius : Nat) (sigma : ℚ) : List ℚ :=
  ((List.range (radius * 2 + 1)).map
    (fun i : Nat => mexp (-(((i : ℚ) - radius) * ((i : ℚ) - radius)) / (2 * sigma * sigma)))).map
    (fun v => v / (((List.range (radius * 2 + 1)).map
      (fun i : Nat => mexp (-(((i : ℚ) - radius) * ((i : ℚ) - radius)) / (2 * sigma * sigma)))).sum))

/-- Edge-clamped index `Math.min(hi, Math.max(0, v))` from the blur passes. -/
def clampI (hi v : Int) : Int := min hi (max 0 v)

/-- One horizontal-pass output value: the tap accumulation over
`i ∈ [-radius, radius]` with edge clamping, reading the input row. -/
def hPassAt (kernel : List ℚ) (radius : Nat) (input : Bitmap) (y x : Nat) : ℚ :=
  ((List.range (radius * 2 + 1)).map (fun j : Nat =>
    input.read (y * input.width + (clampI ((input.width : Int) - 1)
      ((x : Int) + (j : Int) - radius)).toNat) * kernel.getD j 0)).sum

/-- The temp bitmap after the horizontal pass. -/
def hPass (kernel : List ℚ) (radius : Nat) (input : Bitmap) : Bitmap :=
  ⟨input.width, input.height,
    (List.range (input.height * input.width)).map
      (fun n : Nat => hPassAt kernel radius input (n / input.width) (n % input.width))⟩

/-- One vertical-pass output value over the temp bitmap. -/
def vPassAt (kernel : List ℚ) (radius : Nat) (temp : Bitmap) (y x : Nat) : ℚ :=
  ((List.range (radius * 2 + 1)).map (fun j : Nat =>
    temp.read ((clampI ((temp.height : Int) - 1)
      ((y : Int) + (j : Int) - radius)).toNat * temp.width + x) * kernel.getD j 0)).sum

/-- Both separable passes of the blur (horizontal then vertical). -/
def blurPasses (kernel : List ℚ) (radius : Nat) (input : Bitmap) : Bitmap :=
  ⟨input.width, input.height,
    (List.range (input.height * input.width)).map
      (fun n : Nat => vPassAt kernel radius (hPass kernel radius input)
        (n / input.width) (n % input.width))⟩

/-- The body of `gaussianBlur` once sigma is resolved: compute
`radius = Math.round(sigma)`, fetch the kernel from the cache or build and
insert it, then run the two passes. -/
def blurWithSigma (mexp : ℚ → ℚ) (input : Bitmap) (sigma : ℚ) (cache : Cache) :
    Bitmap × Cache :=
  match cacheLookup cache (round sigma).toNat with
  | some kernel => (blurPasses kernel (round sigma).toNat input, cache)
  | none =>
    (blurPasses (buildKernel mexp (round sigma).toNat sigma) (round sigma).toNat input,
      ((round sigma).toNat, buildKernel mexp (round sigma).toNat sigma) :: cache)

/-- Separable Gaussian blur (`gaussianBlur` in blur.ts), with the kernel
coefficient cache as explicit state. `sigmaOpt = none` models calling with
`sigma` left to its default `config.BLUR_SIGMA_FACTOR * input.shape[1]`;
a supplied `kernelWidth` overrides sigma with `kernelWidth / 4`. The radius
is `Math.round(sigma)` (sigma is non-negative at every call site). -/
def gaussianBlur (mexp : ℚ → ℚ) (blurFactor : ℚ) (input : Bitmap)
    (sigmaOpt : Option ℚ) (kwOpt : Option Nat) (cache : Cache) : Bitmap × Cache :=
  blurWithSigma mexp input
    (match kwOpt with
     | some kw => ((kw : ℚ) / 4 : ℚ)
     | none => sigmaOpt.getD (blurFactor * input.width)) cache

/-- A computable, positive and strictly monotone (on non-positive arguments)
stand-in for `Math.exp`, used to instantiate `mexp` in concrete witnesses. -/
def gQ (t : ℚ) : ℚ := 1 / (1 - t)

/-- A 1×1 glyph with a single fully inked pixel, zero advance and bearing. -/
def onePixelGlyph : Glyph := ⟨1, 1, 0, 0, ⟨1, 1, [1]⟩⟩

/-- A 3-wide glyph whose only ink sits in its leftmost column. -/
def threeWideGlyph : Glyph := ⟨3, 1, 0, 0, ⟨3, 1, [1, 0, 0]⟩⟩

/-- A 1×1 glyph with no ink. -/
def zeroGlyph : Glyph := ⟨1, 1, 0, 0, ⟨1, 1, [0]⟩⟩

/-- C1 counterexample: the overlap metric is not monotonically non-decreasing
as kern decreases. Both glyphs have non-negative coverage grids and
`-2 < 0 ≤ 0`, yet moving the glyphs closer (kern `-2` instead of `0`) makes
the left glyph slide past the right glyph's ink, strictly decreasing the
overlap. -/
theorem c1_overlap_not_monotone :
    (∀ q ∈ onePixelGlyph.bitmap.data, 0 ≤ q) ∧
    (∀ q ∈ threeWideGlyph.bitmap.data, 0 ≤ q) ∧
    (-2 : Int) < 0 ∧ (0 : Int) ≤ 0 ∧
    overlap onePixelGlyph threeWideGlyph (-2) < overlap onePixelGlyph threeWideGlyph 0 := by
  refine ⟨?_, ?_, by norm_num, le_refl 0, ?_⟩
  · intro q hq
    simp only [onePixelGlyph, List.mem_singleton] at hq
    rw [hq]; norm_num
  · intro q hq
    simp only [threeWideGlyph, List.mem_cons, List.not_mem_nil, or_false] at hq
    rcases hq with h | h | h <;> rw [h] <;> norm_num
  · have h1 : overlap onePixelGlyph threeWideGlyph (-2) = 0 := by with_unfolding_all rfl
    have h2 : overlap onePixelGlyph threeWideGlyph 0 = 1 := by with_unfolding_all rfl
    rw [h1, h2]; norm_num

/-- C1 (amended): full monotonicity in kern fails (see the counterexample);
what does hold is that the overlap metric is everywhere non-negative, so
moving glyphs closer can never decrease the overlap below a configuration
whose overlap is zero: for `k1 < k2 ≤ 0` with `overlap(l, r, k2) = 0`,
`overlap(l, r, k1) ≥ overlap(l, r, k2)`. -/
theorem c1_amended_monotone_from_zero (left right : Glyph) (k1 k2 : Int)
    (h1 : k1 < k2) (h2 : k2 ≤ 0) (h0 : overlap left right k2 = 0) :
    overlap left right k2 ≤ overlap left right k1 ∧ 0 ≤ overlap left right k1 := by
  refine ⟨?_, overlap_nonneg left right k1⟩
  rw [h0]
  exact overlap_nonneg left right k1

/-- Witness for `c1_amended_monotone_from_zero` at a concrete input. -/
theorem c1_amended_witness :
    (-1 : Int) < 0 ∧ (0 : Int) ≤ 0 ∧ overlap onePixelGlyph zeroGlyph 0 = 0 ∧
    (overlap onePixelGlyph zeroGlyph 0 ≤ overlap onePixelGlyph zeroGlyph (-1) ∧
      0 ≤ overlap onePixelGlyph zeroGlyph (-1)) :=
  ⟨by norm_num, le_refl 0, by with_unfolding_all rfl,
    c1_amended_monotone_from_zero onePixelGlyph zeroGlyph (-1) 0 (by norm_num)
      (le_refl 0) (by with_unfolding_all rfl)⟩

/-- C6: for every pair of glyphs and every kern with a non-empty intersection
range, the overlap accumulation is the sum over every `y` in
`[0, max(left.height, right.height))` and every `x` in the intersection range
of `leftValue² × rightValue²`, with each glyph's value treated as 0 outside
its own bounds. The source's y loop runs only to `left.height`, but every row
at or beyond `left.height` contributes 0 because the left value there is out
of bounds. -/
theorem c6_overlap_is_spec_sum (left right : Glyph) (kern : Int)
    (hne : 0 < interEnd left right kern - interStart left right kern) :
    overlap left right kern = overlapSpecC6 left right kern := by
  unfold overlap overlapSpecC6
  rw [if_neg (by omega)]
  rcases le_or_lt right.height left.height with h | h
  · rw [max_eq_left h]
  · rw [max_eq_right h.le]
    have hsplit : max left.height right.height = left.height + (right.height - left.height) := by
      omega
    have hrange : right.height = left.height + (right.height - left.height) := by omega
    rw [hrange, List.range_add, List.map_append, List.sum_append, List.map_map]
    have hz : (((List.range (right.height - left.height)).map
        ((fun y => ((List.range (interEnd left right kern - interStart left right kern).toNat).map
          (fun j => overlapTerm left right kern y (interStart left right kern + j))).sum) ∘
          (left.height + ·)))).sum = 0 := by
      apply List.sum_eq_zero
      intro q hq
      obtain ⟨i, -, rfl⟩ := List.mem_map.1 hq
      apply List.sum_eq_zero
      intro r hr
      obtain ⟨j, -, rfl⟩ := List.mem_map.1 hr
      exact overlapTerm_eq_zero_of_le_height left right kern _ _ (Nat.le_add_right _ _)
    rw [hz, add_zero]

/-- Witness for `c6_overlap_is_spec_sum` at a concrete input with a non-empty
intersection range. -/
theorem c6_witness :
    0 < interEnd onePixelGlyph threeWideGlyph 0 - interStart onePixelGlyph threeWideGlyph 0 ∧
    overlap onePixelGlyph threeWideGlyph 0 = overlapSpecC6 onePixelGlyph threeWideGlyph 0 :=
  ⟨by decide, c6_overlap_is_spec_sum onePixelGlyph threeWideGlyph 0 (by decide)⟩

/-- A 1×2 coverage grid with one inked pixel, the failing input for the blur
cache bug. -/
def cov12 : Bitmap := ⟨2, 1, [1, 0]⟩

/-- The two blur passes on `cov12` with any radius-1 kernel, computed in
closed form. -/
lemma blurPasses_cov12 (K : List ℚ) :
    blurPasses K 1 cov12 = ⟨2, 1,
      [(K.getD 0 0 + K.getD 1 0) * (K.getD 0 0 + K.getD 1 0 + K.getD 2 0),
       K.getD 0 0 * (K.getD 0 0 + K.getD 1 0 + K.getD 2 0)]⟩ := by
  unfold blurPasses hPass vPassAt hPassAt clampI Bitmap.read cov12
  simp only [show (1:ℕ)*2+1 = 3 from rfl, show List.range 3 = [0,1,2] from rfl,
    show (1:ℕ)*2 = 2 from rfl, show List.range 2 = [0,1] from rfl, List.map_cons,
    List.map_nil, List.sum_cons, List.sum_nil]
  norm_num [List.getD]
  ring_nf
  constructor
  · ring
  · ring

/-- A radius-1 kernel built from any sigma, in closed form. -/
lemma buildKernel_radius_one (mexp : ℚ → ℚ) (σ : ℚ) (w : ℚ)
    (hw : mexp (-1 / (2 * σ * σ)) = w) :
    buildKernel mexp 1 σ =
      [w / (w + mexp 0 + w), mexp 0 / (w + mexp 0 + w), w / (w + mexp 0 + w)] := by
  unfold buildKernel
  simp only [show (1:ℕ)*2+1 = 3 from rfl, show List.range 3 = [0,1,2] from rfl,
    List.map_cons, List.map_nil, List.sum_cons, List.sum_nil]
  norm_num
  rw [hw]
  constructor
  · ring_nf
  constructor
  · ring_nf
  · ring_nf

/-- Sigma 7/5 rounds to radius 1. -/
lemma roundA : (round ((7:ℚ)/5)).toNat = 1 := by norm_num [round_eq]

/-- Sigma 3/5 also rounds to radius 1 — the cache-key collision. -/
lemma roundB : (round ((3:ℚ)/5)).toNat = 1 := by norm_num [round_eq]

/-- Resolving the default-sigma match when an explicit sigma is supplied. -/
lemma sigmaResolve (q : ℚ) (w : Nat) :
    (match (none : Option Nat) with
     | some kw => ((kw : ℚ) / 4 : ℚ)
     | none => (some q).getD ((3:ℚ)/20 * w)) = q := rfl

/-- After a call at sigma 7/5 on an empty cache, the cache holds the sigma-7/5
kernel under key (radius) 1. -/
lemma cacheAfterA (mexp : ℚ → ℚ) :
    (gaussianBlur mexp (3/20) cov12 (some (7/5)) none []).2 =
      [(1, buildKernel mexp 1 (7/5))] := by
  unfold gaussianBlur blurWithSigma
  rw [sigmaResolve, roundA]
  rfl

/-- A call at sigma 3/5 against the polluted cache silently reuses the
sigma-7/5 kernel. -/
lemma cachedCallB (mexp : ℚ → ℚ) :
    (gaussianBlur mexp (3/20) cov12 (some (3/5)) none [(1, buildKernel mexp 1 (7/5))]).1 =
      blurPasses (buildKernel mexp 1 (7/5)) 1 cov12 := by
  unfold gaussianBlur blurWithSigma
  rw [sigmaResolve, roundB]
  rfl

/-- A call at sigma 3/5 on a fresh cache builds and uses the sigma-3/5 kernel. -/
lemma freshCallB (mexp : ℚ → ℚ) :
    (gaussianBlur mexp (3/20) cov12 (some (3/5)) none []).1 =
      blurPasses (buildKernel mexp 1 (3/5)) 1 cov12 := by
  unfold gaussianBlur blurWithSigma
  rw [sigmaResolve, roundB]
  rfl

/-- C7: `gaussianBlur` is NOT a pure function of `(coverage, sigma)` — the
kernel cache is keyed by `radius = round(sigma)` although the kernel
coefficients depend on sigma itself, so an earlier call with a different
sigma of equal radius changes the output of a later call. For any strictly
monotone positive exponential-like `mexp` (`Math.exp` is one), blurring
`cov12` at sigma 3/5 after an earlier call at sigma 7/5 (both have radius 1)
yields a different bitmap than the same call in a fresh run. This contradicts
the determinism claim and the code's own comment that the cache only avoids
"recomputing for same sigma". -/
theorem c7_cache_observable (mexp : ℚ → ℚ) (hpos : ∀ t : ℚ, t ≤ 0 → 0 < mexp t)
    (hmono : ∀ t u : ℚ, t < u → u ≤ 0 → mexp t < mexp u) :
    (gaussianBlur mexp (3/20) cov12 (some (3/5)) none
        ((gaussianBlur mexp (3/20) cov12 (some (7/5)) none []).2)).1 ≠
    (gaussianBlur mexp (3/20) cov12 (some (3/5)) none []).1 := by
  rw [cacheAfterA, cachedCallB, freshCallB]
  have hargA : (-1 : ℚ) / (2 * (7/5) * (7/5)) = -(25/98) := by norm_num
  have hargB : (-1 : ℚ) / (2 * (3/5) * (3/5)) = -(25/18) := by norm_num
  set wA := mexp (-(25/98)) with hwA
  set wB := mexp (-(25/18)) with hwB
  set c := mexp 0 with hc
  have hKA := buildKernel_radius_one mexp (7/5) wA (by rw [hargA])
  have hKB := buildKernel_radius_one mexp (3/5) wB (by rw [hargB])
  rw [hKA, hKB, blurPasses_cov12, blurPasses_cov12]
  have hwApos : 0 < wA := hpos _ (by norm_num)
  have hwBpos : 0 < wB := hpos _ (by norm_num)
  have hcpos : 0 < c := hpos _ le_rfl
  have hlt : wB < wA := hmono _ _ (by norm_num) (by norm_num)
  intro h
  have hdata := congrArg Bitmap.data h
  have hhead : (wA / (wA + c + wA) + c / (wA + c + wA)) *
      (wA / (wA + c + wA) + c / (wA + c + wA) + wA / (wA + c + wA)) =
      (wB / (wB + c + wB) + c / (wB + c + wB)) *
      (wB / (wB + c + wB) + c / (wB + c + wB) + wB / (wB + c + wB)) := by
    exact congrArg (fun l => l.getD 0 0) hdata
  have hSA : wA + c + wA ≠ 0 := by positivity
  have hSB : wB + c + wB ≠ 0 := by positivity
  field_simp at hhead
  nlinarith [hhead, hwApos, hwBpos, hcpos, hlt, sq_nonneg (wA - wB), sq_nonneg (wA + wB)]

/-- The witness exponential `gQ` is positive on non-positive arguments. -/
lemma gQ_pos (t : ℚ) (ht : t ≤ 0) : 0 < gQ t := by
  unfold gQ
  have : (0:ℚ) < 1 - t := by linarith
  positivity

/-- The witness exponential `gQ` is strictly monotone on non-positives. -/
lemma gQ_mono (t u : ℚ) (htu : t < u) (hu : u ≤ 0) : gQ t < gQ u := by
  unfold gQ
  have h1 : (0:ℚ) < 1 - u := by linarith
  have h2 : (0:ℚ) < 1 - t := by linarith
  rw [div_lt_div_iff₀ h2 h1]
  linarith

/-- Witness for `c7_cache_observable` at the computable exponential `gQ`. -/
theorem c7_witness :
    (gaussianBlur gQ (3/20) cov12 (some (3/5)) none
        ((gaussianBlur gQ (3/20) cov12 (some (7/5)) none []).2)).1 ≠
    (gaussianBlur gQ (3/20) cov12 (some (3/5)) none []).1 :=
  c7_cache_observable gQ gQ_pos gQ_mono

/-- Central configuration (config.ts); fields may be overridden through
environment variables, the defaults below are the unconfigured values. -/
structure Config where
  FONT_SIZE : Nat
  BLUR_SIGMA_FACTOR : ℚ
  MAX_KERN : Int
  KERN_STEP : Int
  SELECTION_STRATEGY : String
  NO_OVERLAP_EPS : ℚ
deriving DecidableEq

/-- config.ts defaults with no environment overrides: `FONT_SIZE = 100`,
`BLUR_SIGMA_FACTOR = 0.15`, `MAX_KERN = 30`, `KERN_STEP = 1`,
`SELECTION_STRATEGY = "calibrated"`, `NO_OVERLAP_EPS = 1`. -/
def defaultConfig : Config := ⟨100, 3/20, 30, 1, "calibrated", 1⟩

/-- The strategy actually used by kernPair:
`config.SELECTION_STRATEGY || "conservative"` (the fallback fires only when
the configured string is empty/falsy). -/
def strategyOf (cfg : Config) : String :=
  if cfg.SELECTION_STRATEGY = "" then "conservative" else cfg.SELECTION_STRATEGY

/-- The epsilon actually used: `config.NO_OVERLAP_EPS || 1`. -/
def epsOf (cfg : Config) : ℚ :=
  if cfg.NO_OVERLAP_EPS = 0 then 1 else cfg.NO_OVERLAP_EPS

/-- The two blurred glyphs built at the top of kernPair, the kernel cache
threaded from the first `gaussianBlur` call into the second. -/
def blurredPair (mexp : ℚ → ℚ) (cfg : Config) (left right : Glyph)
    (kwOpt : Option Nat) (cache : Cache) : Glyph × Glyph :=
  ({ left with bitmap :=
      (gaussianBlur mexp cfg.BLUR_SIGMA_FACTOR left.bitmap none kwOpt cache).1 },
   { right with bitmap :=
      (gaussianBlur mexp cfg.BLUR_SIGMA_FACTOR right.bitmap none kwOpt
        (gaussianBlur mexp cfg.BLUR_SIGMA_FACTOR left.bitmap none kwOpt cache).2).1 })

/-- One step of the calibration scan: update best on strictly larger overlap
(`if (s > bestOverlap)`), so ties keep the earlier kern. -/
def calibStep (ov : Int → ℚ) (acc : Int × ℚ) (k : Int) : Int × ℚ :=
  if acc.2 < ov k then (k, ov k) else acc

/-- The calibration scan result: fold of `calibStep` over the scanned kerns
starting from `bestKern = 0, bestOverlap = 0`. -/
def calibBest (ov : Int → ℚ) (ks : List Int) : Int :=
  (ks.foldl (calibStep ov) (0, 0)).1

/-- The pre-sampled `(kernel, sumPixel)` pairs over
`[-MAX_KERN, MAX_KERN]` step `max(1, KERN_STEP)`. -/
def samplesOf (ov : Int → ℚ) (M S : Int) : List (Int × ℚ) :=
  (ascRange (-M) M S).map (fun k => (k, ov k))

/-- The midpoint strategy: closest sample to the target, first wins on ties;
`samples[0]` on an empty list is the modelled crash (`none`). -/
def midpointSel (samples : List (Int × ℚ)) (target : ℚ) : Option Int :=
  match samples with
  | [] => none
  | p0 :: _ =>
    some ((samples.foldl
      (fun a p => if |p.2 - target| < a.2 then (p.1, |p.2 - target|) else a)
      (p0.1, |p0.2 - target|)).1)

/-- `Math.min(...)` over a list of kerns (only reached on a non-empty list). -/
def listMinI : List Int → Int
  | [] => 0
  | x :: xs => xs.foldl min x

/-- The conservative strategy's walk over the sorted samples: remember the
last kern whose overlap was ≤ EPS; on the first larger overlap return it
(or 0); if the walk completes with a good kern seen, return the most
negative sampled kern. -/
def consWalk (eps : ℚ) (minAll : Int) : List (Int × ℚ) → Option Int → Int
  | [], lastGood =>
    match lastGood with
    | some _ => minAll
    | none => 0
  | p :: rest, lastGood =>
    if p.2 ≤ eps then consWalk eps minAll rest (some p.1)
    else
      match lastGood with
      | some k => k
      | none => 0

/-- The conservative strategy: sort samples by kernel descending
(`slice().sort((a, b) => b.kernel - a.kernel)`), then walk. -/
def consSel (samples : List (Int × ℚ)) (eps : ℚ) : Int :=
  consWalk eps (listMinI (samples.map (fun p => p.1)))
    (samples.mergeSort (fun a b => decide (b.1 ≤ a.1))) none

/-- `samples.find(x => x.kernel === kern)` returning its overlap. -/
def lookupSample (samples : List (Int × ℚ)) (k : Int) : Option ℚ :=
  (samples.find? (fun p => p.1 == k)).map (fun p => p.2)

/-- A walk over kern offsets looking up each in the samples; the outer `none`
models the crash of the non-null assertion `samples.find(...)!` when a kern
is missing; `some (some k)` is a hit, `some none` a completed walk. -/
def scanFirst (samples : List (Int × ℚ)) (pred : ℚ → Bool) : List Int → Option (Option Int)
  | [] => some none
  | k :: rest =>
    match lookupSample samples k with
    | none => none
    | some s => if pred s then some (some k) else scanFirst samples pred rest

/-- The default (`calibrated`) strategy branch of kernPair. -/
def calibratedSel (samples : List (Int × ℚ)) (minOverlap maxOverlap : ℚ)
    (M S : Int) : Option Int :=
  match lookupSample samples 0 with
  | none => none
  | some s0 =>
    if minOverlap ≤ s0 ∧ s0 ≤ maxOverlap then some 0
    else if s0 < minOverlap then
      match scanFirst samples (fun s => decide (minOverlap ≤ s)) (descRange (-S) (-M) S) with
      | none => none
      | some (some k) => some k
      | some none => some 0
    else if maxOverlap < s0 then
      match scanFirst samples (fun s => decide (s ≤ maxOverlap)) (ascRange S M S) with
      | none => none
      | some (some k) => some k
      | some none => some 0
    else some 0

/-- The kern samples computed by kernPair for the strategy branches. -/
def kernSamples (mexp : ℚ → ℚ) (cfg : Config) (left right : Glyph)
    (kwOpt : Option Nat) (cache : Cache) : List (Int × ℚ) :=
  samplesOf
    (fun k => overlap (blurredPair mexp cfg left right kwOpt cache).1
      (blurredPair mexp cfg left right kwOpt cache).2 k)
    cfg.MAX_KERN (max 1 cfg.KERN_STEP)

/-- Estimate kerning between two glyphs (`kernPair` in kernPair.ts, the
5-parameter variant the spec documents). Returns `none` only on the modelled
crash paths (a missing `samples.find(...)!` target or `samples[0]` on an
empty list). The calibration special case fires on
`minOverlap === 0 && maxOverlap === 1e10` before any strategy dispatch. -/
def kernPair (mexp : ℚ → ℚ) (cfg : Config) (left right : Glyph)
    (minOverlap maxOverlap : ℚ) (kernelWidth : Option Nat) (cache : Cache) : Option Int :=
  if minOverlap = 0 ∧ maxOverlap = 10000000000 then
    some (calibBest
      (fun k => overlap (blurredPair mexp cfg left right kernelWidth cache).1
        (blurredPair mexp cfg left right kernelWidth cache).2 k)
      (ascRange (-cfg.MAX_KERN) 0 (max 1 cfg.KERN_STEP)))
  else if strategyOf cfg = "midpoint" then
    midpointSel (kernSamples mexp cfg left right kernelWidth cache)
      ((minOverlap + maxOverlap) / 2)
  else if strategyOf cfg = "conservative" then
    some (consSel (kernSamples mexp cfg left right kernelWidth cache) (epsOf cfg))
  else
    calibratedSel (kernSamples mexp cfg left right kernelWidth cache)
      minOverlap maxOverlap cfg.MAX_KERN (max 1 cfg.KERN_STEP)

/-- The first-strict-maximum characterization of the calibration fold: either
no element beats the accumulator (fold returns it unchanged), or the fold
returns the first (least, for a strictly increasing scan) element attaining
the maximum overlap. -/
lemma calibFold_char (ov : Int → ℚ) :
    ∀ (ks : List Int) (acc : Int × ℚ), ks.Pairwise (· < ·) →
    (ks.foldl (calibStep ov) acc = acc ∧ ∀ k ∈ ks, ov k ≤ acc.2) ∨
    ((ks.foldl (calibStep ov) acc).1 ∈ ks ∧
      ov (ks.foldl (calibStep ov) acc).1 = (ks.foldl (calibStep ov) acc).2 ∧
      acc.2 < (ks.foldl (calibStep ov) acc).2 ∧
      (∀ k ∈ ks, ov k ≤ (ks.foldl (calibStep ov) acc).2) ∧
      (∀ k ∈ ks, ov k = (ks.foldl (calibStep ov) acc).2 →
        (ks.foldl (calibStep ov) acc).1 ≤ k)) := by
  intro ks
  induction ks with
  | nil => intro acc _; left; exact ⟨rfl, by simp⟩
  | cons k rest ih =>
    intro acc hp
    have hp' : rest.Pairwise (· < ·) := hp.of_cons
    have hklt : ∀ j ∈ rest, k < j := fun j hj => List.rel_of_pairwise_cons hp hj
    rw [List.foldl_cons]
    by_cases h : acc.2 < ov k
    · have hstep : calibStep ov acc k = (k, ov k) := by unfold calibStep; rw [if_pos h]
      rw [hstep]
      rcases ih (k, ov k) hp' with ⟨heq, hb⟩ | ⟨hmem, hov, hlt, hb, hleast⟩
      · right
        rw [heq]
        refine ⟨List.mem_cons_self _ _, rfl, h, ?_, ?_⟩
        · intro j hj
          rcases List.mem_cons.1 hj with rfl | hj'
          · exact le_refl _
          · exact hb j hj'
        · intro j hj _
          rcases List.mem_cons.1 hj with rfl | hj'
          · exact le_refl _
          · exact (hklt j hj').le
      · right
        refine ⟨List.mem_cons_of_mem _ hmem, hov, lt_trans h hlt, ?_, ?_⟩
        · intro j hj
          rcases List.mem_cons.1 hj with rfl | hj'
          · exact le_of_lt hlt
          · exact hb j hj'
        · intro j hj hje
          rcases List.mem_cons.1 hj with rfl | hj'
          · exact absurd hje (ne_of_lt hlt)
          · exact hleast j hj' hje
    · have hstep : calibStep ov acc k = acc := by unfold calibStep; rw [if_neg h]
      rw [hstep]
      rcases ih acc hp' with ⟨heq, hb⟩ | ⟨hmem, hov, hlt, hb, hleast⟩
      · left
        refine ⟨heq, ?_⟩
        intro j hj
        rcases List.mem_cons.1 hj with rfl | hj'
        · exact le_of_not_lt h
        · exact hb j hj'
      · right
        refine ⟨List.mem_cons_of_mem _ hmem, hov, hlt, ?_, ?_⟩
        · intro j hj
          rcases List.mem_cons.1 hj with rfl | hj'
          · exact le_of_lt (lt_of_le_of_lt (le_of_not_lt h) hlt)
          · exact hb j hj'
        · intro j hj hje
          rcases List.mem_cons.1 hj with rfl | hj'
          · exact absurd hje (ne_of_lt (lt_of_le_of_lt (le_of_not_lt h) hlt))
          · exact hleast j hj' hje

/-- C3 (amended): when `minOverlap == 0` and `maxOverlap == 1e10` kernPair
ignores the bounds and linearly scans kern from `-MAX_KERN` to `0` in steps
of `max(1, KERN_STEP)`, returning the kern that maximizes the overlap of the
internally blurred glyphs; ties keep the FIRST maximum found in scan order,
which is the MOST negative maximizer (not the least negative, as the claim
states); if every sampled overlap is zero the initial best `kern = 0` is
returned. -/
theorem c3_amended_calibration_scan (mexp : ℚ → ℚ) (cfg : Config) (left right : Glyph)
    (kwOpt : Option Nat) (cache : Cache) (hM : 0 ≤ cfg.MAX_KERN) :
    ∃ k, kernPair mexp cfg left right 0 10000000000 kwOpt cache = some k ∧
      ((∀ j ∈ ascRange (-cfg.MAX_KERN) 0 (max 1 cfg.KERN_STEP),
          overlap (blurredPair mexp cfg left right kwOpt cache).1
            (blurredPair mexp cfg left right kwOpt cache).2 j = 0) → k = 0) ∧
      ((∃ j ∈ ascRange (-cfg.MAX_KERN) 0 (max 1 cfg.KERN_STEP),
          0 < overlap (blurredPair mexp cfg left right kwOpt cache).1
            (blurredPair mexp cfg left right kwOpt cache).2 j) →
        k ∈ ascRange (-cfg.MAX_KERN) 0 (max 1 cfg.KERN_STEP) ∧
        (∀ j ∈ ascRange (-cfg.MAX_KERN) 0 (max 1 cfg.KERN_STEP),
          overlap (blurredPair mexp cfg left right kwOpt cache).1
            (blurredPair mexp cfg left right kwOpt cache).2 j ≤
          overlap (blurredPair mexp cfg left right kwOpt cache).1
            (blurredPair mexp cfg left right kwOpt cache).2 k) ∧
        (∀ j ∈ ascRange (-cfg.MAX_KERN) 0 (max 1 cfg.KERN_STEP),
          overlap (blurredPair mexp cfg left right kwOpt cache).1
            (blurredPair mexp cfg left right kwOpt cache).2 j =
          overlap (blurredPair mexp cfg left right kwOpt cache).1
            (blurredPair mexp cfg left right kwOpt cache).2 k → k ≤ j)) := by
  set bl := (blurredPair mexp cfg left right kwOpt cache).1 with hbl
  set br := (blurredPair mexp cfg left right kwOpt cache).2 with hbr
  set ov : Int → ℚ := fun k => overlap bl br k with hov
  set ks := ascRange (-cfg.MAX_KERN) 0 (max 1 cfg.KERN_STEP) with hks
  have hpair : ks.Pairwise (· < ·) := ascRange_pairwise _ _ _ (by omega)
  have hrun : kernPair mexp cfg left right 0 10000000000 kwOpt cache =
      some (calibBest ov ks) := by
    unfold kernPair
    rw [if_pos ⟨rfl, rfl⟩]
  refine ⟨calibBest ov ks, hrun, ?_, ?_⟩
  · intro hall
    rcases calibFold_char ov ks (0, 0) hpair with ⟨heq, -⟩ | ⟨hmem, hove, hlt, -, -⟩
    · unfold calibBest
      rw [heq]
    · exfalso
      have hz : ov (List.foldl (calibStep ov) (0, 0) ks).1 = 0 := hall _ hmem
      rw [hz] at hove
      rw [← hove] at hlt
      exact lt_irrefl 0 hlt
  · rintro ⟨j, hj, hjpos⟩
    rcases calibFold_char ov ks (0, 0) hpair with ⟨-, hb⟩ | ⟨hmem, hove, -, hb, hleast⟩
    · exfalso
      have : ov j ≤ (0, (0:ℚ)).2 := hb j hj
      exact absurd hjpos (not_lt.2 this)
    · unfold calibBest
      refine ⟨hmem, ?_, ?_⟩
      · intro i hi
        exact le_trans (hb i hi) (le_of_eq hove.symm)
      · intro i hi hie
        have hie' : ov i = (List.foldl (calibStep ov) (0, 0) ks).2 :=
          Eq.trans hie hove
        exact hleast i hi hie'

/-- A configuration with a small kern range for concrete counterexamples;
only numeric fields differ from the defaults, the strategy is unconfigured. -/
def cfgSmall4 : Config := { defaultConfig with MAX_KERN := 4 }

/-- A 5-wide glyph with two equally inked columns (1 and 2): a tie in the
calibration scan. -/
def twinPeakGlyph : Glyph := ⟨5, 1, 0, 0, ⟨5, 1, [0, 1, 1, 0, 0]⟩⟩

/-- With kernel width 1 the blur radius is 0 and blurring is the identity. -/
lemma blurredPairC3 :
    blurredPair gQ cfgSmall4 onePixelGlyph twinPeakGlyph (some 1) [] =
      (onePixelGlyph, twinPeakGlyph) := by
  with_unfolding_all rfl

/-- Unfolding the calibration run of the C3 counterexample. -/
lemma kernPairC3run :
    kernPair gQ cfgSmall4 onePixelGlyph twinPeakGlyph 0 10000000000 (some 1) [] =
      some (calibBest (fun k => overlap onePixelGlyph twinPeakGlyph k) [-4, -3, -2, -1, 0]) := by
  unfold kernPair
  rw [if_pos ⟨rfl, rfl⟩, blurredPairC3]
  rw [show ascRange (-cfgSmall4.MAX_KERN) 0 (max 1 cfgSmall4.KERN_STEP) = [-4, -3, -2, -1, 0]
    from by decide]

/-- Evaluating the calibration fold of the C3 counterexample. -/
lemma calibBestC3 :
    calibBest (fun k => overlap onePixelGlyph twinPeakGlyph k) [-4, -3, -2, -1, 0] = -2 := by
  with_unfolding_all rfl

/-- C3 counterexample: in the calibration scan, kerns `-2` and `-1` tie for
the maximal overlap (both 1, all other samples smaller), and kernPair returns
`-2` — the most negative maximizer — contradicting the claim that ties keep
the least negative maximum. -/
theorem c3_counterexample :
    kernPair gQ cfgSmall4 onePixelGlyph twinPeakGlyph 0 10000000000 (some 1) [] = some (-2) ∧
    blurredPair gQ cfgSmall4 onePixelGlyph twinPeakGlyph (some 1) [] =
      (onePixelGlyph, twinPeakGlyph) ∧
    overlap onePixelGlyph twinPeakGlyph (-1) = 1 ∧
    overlap onePixelGlyph twinPeakGlyph (-2) = 1 ∧
    (∀ j ∈ ascRange (-4) 0 1, overlap onePixelGlyph twinPeakGlyph j ≤ 1) ∧
    ((-2 : Int) ≠ -1 ∧ (-2 : Int) < -1) := by
  refine ⟨by rw [kernPairC3run, calibBestC3], blurredPairC3,
    by with_unfolding_all rfl, by with_unfolding_all rfl, ?_, by norm_num⟩
  intro j hj
  have hlist : ascRange (-4) 0 1 = [-4, -3, -2, -1, 0] := by decide
  rw [hlist] at hj
  simp only [List.mem_cons, List.not_mem_nil, or_false] at hj
  rcases hj with rfl | rfl | rfl | rfl | rfl
  · rw [show overlap onePixelGlyph twinPeakGlyph (-4) = 0 from by with_unfolding_all rfl]
    norm_num
  · rw [show overlap onePixelGlyph twinPeakGlyph (-3) = 0 from by with_unfolding_all rfl]
    norm_num
  · rw [show overlap onePixelGlyph twinPeakGlyph (-2) = 1 from by with_unfolding_all rfl]
  · rw [show overlap onePixelGlyph twinPeakGlyph (-1) = 1 from by with_unfolding_all rfl]
  · rw [show overlap onePixelGlyph twinPeakGlyph 0 = 0 from by with_unfolding_all rfl]
    norm_num

/-- Witness for `c3_amended_calibration_scan` at a concrete input. -/
theorem c3_witness :
    0 ≤ cfgSmall4.MAX_KERN ∧
    ∃ k, kernPair gQ cfgSmall4 onePixelGlyph twinPeakGlyph 0 10000000000 (some 1) [] = some k ∧
      ((∀ j ∈ ascRange (-cfgSmall4.MAX_KERN) 0 (max 1 cfgSmall4.KERN_STEP),
          overlap (blurredPair gQ cfgSmall4 onePixelGlyph twinPeakGlyph (some 1) []).1
            (blurredPair gQ cfgSmall4 onePixelGlyph twinPeakGlyph (some 1) []).2 j = 0) → k = 0) ∧
      ((∃ j ∈ ascRange (-cfgSmall4.MAX_KERN) 0 (max 1 cfgSmall4.KERN_STEP),
          0 < overlap (blurredPair gQ cfgSmall4 onePixelGlyph twinPeakGlyph (some 1) []).1
            (blurredPair gQ cfgSmall4 onePixelGlyph twinPeakGlyph (some 1) []).2 j) →
        k ∈ ascRange (-cfgSmall4.MAX_KERN) 0 (max 1 cfgSmall4.KERN_STEP) ∧
        (∀ j ∈ ascRange (-cfgSmall4.MAX_KERN) 0 (max 1 cfgSmall4.KERN_STEP),
          overlap (blurredPair gQ cfgSmall4 onePixelGlyph twinPeakGlyph (some 1) []).1
            (blurredPair gQ cfgSmall4 onePixelGlyph twinPeakGlyph (some 1) []).2 j ≤
          overlap (blurredPair gQ cfgSmall4 onePixelGlyph twinPeakGlyph (some 1) []).1
            (blurredPair gQ cfgSmall4 onePixelGlyph twinPeakGlyph (some 1) []).2 k) ∧
        (∀ j ∈ ascRange (-cfgSmall4.MAX_KERN) 0 (max 1 cfgSmall4.KERN_STEP),
          overlap (blurredPair gQ cfgSmall4 onePixelGlyph twinPeakGlyph (some 1) []).1
            (blurredPair gQ cfgSmall4 onePixelGlyph twinPeakGlyph (some 1) []).2 j =
          overlap (blurredPair gQ cfgSmall4 onePixelGlyph twinPeakGlyph (some 1) []).1
            (blurredPair gQ cfgSmall4 onePixelGlyph twinPeakGlyph (some 1) []).2 k → k ≤ j)) :=
  ⟨by decide, c3_amended_calibration_scan gQ cfgSmall4 onePixelGlyph twinPeakGlyph
    (some 1) [] (by decide)⟩

/-- kernPair depends on the configuration only through the resolved strategy,
resolved epsilon, kern bounds/step and blur factor. -/
lemma kernPair_cfg_eq (mexp : ℚ → ℚ) (cfg1 cfg2 : Config)
    (h1 : strategyOf cfg1 = strategyOf cfg2) (h2 : epsOf cfg1 = epsOf cfg2)
    (h3 : cfg1.MAX_KERN = cfg2.MAX_KERN)
    (h4 : max 1 cfg1.KERN_STEP = max 1 cfg2.KERN_STEP)
    (h5 : cfg1.BLUR_SIGMA_FACTOR = cfg2.BLUR_SIGMA_FACTOR)
    (left right : Glyph) (minO maxO : ℚ) (kwOpt : Option Nat) (cache : Cache) :
    kernPair mexp cfg1 left right minO maxO kwOpt cache =
      kernPair mexp cfg2 left right minO maxO kwOpt cache := by
  unfold kernPair kernSamples blurredPair samplesOf
  rw [h1, h2, h3, h4, h5]

/-- A small-kern-range configuration whose strategy is left at the
unconfigured default. -/
def cfgSmall2 : Config := { defaultConfig with MAX_KERN := 2 }

/-- C4 (amended): kernPair's `config.SELECTION_STRATEGY || "conservative"`
fallback makes `conservative` the strategy only when the configured string is
empty (falsy); with no configuration at all, config.ts supplies
`SELECTION_STRATEGY = "calibrated"`, so the effective default strategy is
`calibrated`, not `conservative`. -/
theorem c4_amended_conservative_only_on_empty (mexp : ℚ → ℚ) (cfg : Config)
    (left right : Glyph) (minO maxO : ℚ) (kwOpt : Option Nat) (cache : Cache)
    (hstrat : cfg.SELECTION_STRATEGY = "") :
    kernPair mexp cfg left right minO maxO kwOpt cache =
      kernPair mexp { cfg with SELECTION_STRATEGY := "conservative" }
        left right minO maxO kwOpt cache ∧
    defaultConfig.SELECTION_STRATEGY = "calibrated" := by
  refine ⟨?_, rfl⟩
  apply kernPair_cfg_eq
  · unfold strategyOf
    rw [if_pos hstrat, if_neg (by simp)]
  · rfl
  · rfl
  · rfl
  · rfl

/-- C4 counterexample: with the unconfigured default strategy (`"calibrated"`)
kernPair returns 0 on two blank glyphs with bounds `[0, 5]`, while the
conservative strategy on the same input returns `-MAX_KERN = -2`; so with no
strategy configured kernPair does NOT select using the conservative
strategy. -/
theorem c4_counterexample :
    defaultConfig.SELECTION_STRATEGY = "calibrated" ∧
    cfgSmall2.SELECTION_STRATEGY = defaultConfig.SELECTION_STRATEGY ∧
    kernPair gQ cfgSmall2 zeroGlyph zeroGlyph 0 5 (some 1) [] = some 0 ∧
    kernPair gQ { cfgSmall2 with SELECTION_STRATEGY := "conservative" }
      zeroGlyph zeroGlyph 0 5 (some 1) [] = some (-2) ∧
    (some (0 : Int) ≠ some (-2 : Int)) := by
  refine ⟨rfl, rfl, ?_, ?_, by simp⟩
  · with_unfolding_all rfl
  · with_unfolding_all rfl

/-- Witness for `c4_amended_conservative_only_on_empty` at a concrete
configuration with an empty strategy string. -/
theorem c4_witness :
    ({ defaultConfig with SELECTION_STRATEGY := "" } : Config).SELECTION_STRATEGY = "" ∧
    (kernPair gQ { defaultConfig with SELECTION_STRATEGY := "" }
        zeroGlyph zeroGlyph 0 5 (some 1) [] =
      kernPair gQ { { defaultConfig with SELECTION_STRATEGY := "" } with
          SELECTION_STRATEGY := "conservative" } zeroGlyph zeroGlyph 0 5 (some 1) [] ∧
      defaultConfig.SELECTION_STRATEGY = "calibrated") :=
  ⟨rfl, c4_amended_conservative_only_on_empty gQ
    { defaultConfig with SELECTION_STRATEGY := "" } zeroGlyph zeroGlyph 0 5
    (some 1) [] rfl⟩



/-- Two weakly-descending-sorted pair lists that are permutations of each
other and have duplicate-free keys are equal. -/
lemma eq_of_perm_sorted_nodupKeys :
    ∀ (l₁ l₂ : List (Int × ℚ)), l₁.Perm l₂ →
    l₁.Pairwise (fun a b => b.1 ≤ a.1) → l₂.Pairwise (fun a b => b.1 ≤ a.1) →
    (l₁.map Prod.fst).Nodup → l₁ = l₂ := by
  intro l₁
  induction l₁ with
  | nil =>
    intro l₂ hperm _ _ _
    exact (List.Perm.nil_eq hperm).symm ▸ rfl
  | cons a t₁ ih =>
    intro l₂ hperm hs1 hs2 hnd
    match l₂ with
    | [] => exact absurd hperm.symm (by simp)
    | b :: t₂ =>
      have hab : a = b := by
        have hbmem : b ∈ a :: t₁ := hperm.symm.subset (List.mem_cons_self b t₂)
        have hamem : a ∈ b :: t₂ := hperm.subset (List.mem_cons_self a t₁)
        rcases List.mem_cons.1 hbmem with h | hbt
        · exact h.symm
        rcases List.mem_cons.1 hamem with h | hat
        · exact h
        have h1 : b.1 ≤ a.1 := List.rel_of_pairwise_cons hs1 hbt
        have h2 : a.1 ≤ b.1 := List.rel_of_pairwise_cons hs2 hat
        have hfe : a.1 = b.1 := le_antisymm h2 h1
        exfalso
        have : a.1 ∈ t₁.map Prod.fst := List.mem_map.2 ⟨b, hbt, hfe.symm⟩
        exact (List.nodup_cons.1 hnd).1 this
      subst hab
      have hperm' : t₁.Perm t₂ := (List.perm_cons a).1 hperm
      have := ih t₂ hperm' hs1.of_cons hs2.of_cons (List.nodup_cons.1 hnd).2
      rw [this]

/-- Sorting a strictly-increasing-key sample list with the descending
comparator `(a, b) => b.kernel - a.kernel` yields exactly its reverse. -/
lemma mergeSort_desc_eq_reverse (l : List (Int × ℚ))
    (h : l.Pairwise (fun a b => a.1 < b.1)) :
    l.mergeSort (fun a b => decide (b.1 ≤ a.1)) = l.reverse := by
  have hndk : (l.map Prod.fst).Nodup := by
    have : (l.map Prod.fst).Pairwise (· < ·) := List.pairwise_map.2 h
    exact this.nodup
  have hperm : (l.mergeSort (fun a b => decide (b.1 ≤ a.1))).Perm l.reverse :=
    (List.mergeSort_perm l _).trans l.reverse_perm.symm
  have hs1 : (l.mergeSort (fun a b => decide (b.1 ≤ a.1))).Pairwise
      (fun a b => b.1 ≤ a.1) := by
    have := @List.sorted_mergeSort (Int × ℚ)
      (fun a b : Int × ℚ => decide (b.1 ≤ a.1))
      (fun a b c hab hbc => by
        simp only [decide_eq_true_eq] at *
        exact le_trans hbc hab)
      (fun a b => by
        simp only [Bool.or_eq_true, decide_eq_true_eq]
        exact le_total b.1 a.1) l
    exact this.imp (fun hab => by simpa using hab)
  have hs2 : (l.reverse).Pairwise (fun a b => b.1 ≤ a.1) := by
    rw [List.pairwise_reverse]
    exact h.imp le_of_lt
  have hnd1 : ((l.mergeSort (fun a b => decide (b.1 ≤ a.1))).map Prod.fst).Nodup := by
    have hp : ((l.mergeSort (fun a b => decide (b.1 ≤ a.1))).map Prod.fst).Perm
        (l.map Prod.fst) := (List.mergeSort_perm l _).map Prod.fst
    exact hp.nodup_iff.2 hndk
  exact eq_of_perm_sorted_nodupKeys _ _ hperm hs1 hs2 hnd1



/-- The conservative walk on an exhausted list. -/
lemma consWalk_nil (eps : ℚ) (m : Int) (acc : Option Int) :
    consWalk eps m [] acc = match acc with | some _ => m | none => 0 := rfl

/-- The conservative walk's step equation. -/
lemma consWalk_cons (eps : ℚ) (m : Int) (p : Int × ℚ) (rest : List (Int × ℚ))
    (acc : Option Int) :
    consWalk eps m (p :: rest) acc =
      if p.2 ≤ eps then consWalk eps m rest (some p.1)
      else match acc with | some k => k | none => 0 := rfl

/-- Walking through a block of good samples only moves `lastGood` to the
block's final kern. -/
lemma consWalk_append_good (eps : ℚ) (m : Int) :
    ∀ (G R : List (Int × ℚ)) (acc : Option Int), (∀ p ∈ G, p.2 ≤ eps) →
    consWalk eps m (G ++ R) acc =
      consWalk eps m R (match G.getLast? with | some p => some p.1 | none => acc) := by
  intro G
  induction G with
  | nil => intro R acc _; rfl
  | cons p G' ih =>
    intro R acc hg
    rw [List.cons_append]
    have hp : p.2 ≤ eps := hg p (List.mem_cons_self _ _)
    rw [consWalk_cons, if_pos hp]
    rw [ih R (some p.1) (fun q hq => hg q (List.mem_cons_of_mem _ hq))]
    congr 1
    match G' with
    | [] => rfl
    | q :: G'' =>
      obtain ⟨r, hr⟩ : ∃ r, (q :: G'').getLast? = some r := by
        cases h : (q :: G'').getLast? with
        | none => exact absurd (List.getLast?_eq_none_iff.1 h) (by simp)
        | some r => exact ⟨r, rfl⟩
      rw [List.getLast?_cons_cons, hr]

/-- Hitting a bad sample returns the last good kern (or 0). -/
lemma consWalk_bad_cons (eps : ℚ) (m : Int) (b : Int × ℚ) (T : List (Int × ℚ))
    (acc : Option Int) (hb : ¬ b.2 ≤ eps) :
    consWalk eps m (b :: T) acc = acc.getD 0 := by
  unfold consWalk
  rw [if_neg hb]
  match acc with
  | some k => rfl
  | none => rfl

/-- The fold of `min` returns a member that bounds every element below. -/
lemma foldl_min_spec : ∀ (xs : List Int) (a : Int),
    xs.foldl min a ∈ a :: xs ∧ ∀ x ∈ a :: xs, xs.foldl min a ≤ x := by
  intro xs
  induction xs with
  | nil => intro a; exact ⟨List.mem_singleton.2 rfl, by simp⟩
  | cons x xs ih =>
    intro a
    rw [List.foldl_cons]
    obtain ⟨hmem, hle⟩ := ih (min a x)
    constructor
    · rcases List.mem_cons.1 hmem with h | h
      · rcases min_choice a x with hc | hc
        · rw [h, hc]; exact List.mem_cons_self _ _
        · rw [h, hc]; exact List.mem_cons_of_mem _ (List.mem_cons_self _ _)
      · exact List.mem_cons_of_mem _ (List.mem_cons_of_mem _ h)
    · intro y hy
      have hbase : xs.foldl min (min a x) ≤ min a x :=
        hle (min a x) (List.mem_cons_self _ _)
      rcases List.mem_cons.1 hy with rfl | hy'
      · exact le_trans hbase (min_le_left _ _)
      rcases List.mem_cons.1 hy' with rfl | hy''
      · exact le_trans hbase (min_le_right _ _)
      · exact hle y (List.mem_cons_of_mem _ hy'')

/-- `Math.min(...)` over a non-empty list is a member and a lower bound. -/
lemma listMinI_spec (l : List Int) (hne : l ≠ []) :
    listMinI l ∈ l ∧ ∀ x ∈ l, listMinI l ≤ x := by
  match l with
  | [] => exact absurd rfl hne
  | x :: xs => exact foldl_min_spec xs x



/-- `dropWhile` is empty or starts with an element failing the predicate. -/
lemma dropWhile_head_bad (eps : ℚ) :
    ∀ (l : List (Int × ℚ)),
      l.dropWhile (fun p => decide (p.2 ≤ eps)) = [] ∨
      ∃ b T, l.dropWhile (fun p => decide (p.2 ≤ eps)) = b :: T ∧ ¬ (b.2 ≤ eps) := by
  intro l
  induction l with
  | nil => left; rfl
  | cons p l' ih =>
    by_cases hp : p.2 ≤ eps
    · rw [List.dropWhile_cons_of_pos (by simpa using hp)]
      exact ih
    · right
      exact ⟨p, l', List.dropWhile_cons_of_neg (by simpa using hp), hp⟩

/-- Characterization of the conservative selection on a strictly increasing
kern scan: it returns the most negative sampled kern above which every sample
(itself included) is within EPS, and 0 when no sampled kern qualifies. -/
lemma consSel_char (eps : ℚ) (ov : Int → ℚ) (ks : List Int)
    (hks : ks.Pairwise (· < ·)) :
    ((∃ κ ∈ ks, ∀ j ∈ ks, κ ≤ j → ov j ≤ eps) →
      (consSel (ks.map (fun k => (k, ov k))) eps ∈ ks ∧
       (∀ j ∈ ks, consSel (ks.map (fun k => (k, ov k))) eps ≤ j → ov j ≤ eps) ∧
       (∀ κ ∈ ks, (∀ j ∈ ks, κ ≤ j → ov j ≤ eps) →
         consSel (ks.map (fun k => (k, ov k))) eps ≤ κ))) ∧
    ((¬ ∃ κ ∈ ks, ∀ j ∈ ks, κ ≤ j → ov j ≤ eps) →
      consSel (ks.map (fun k => (k, ov k))) eps = 0) := by
  set samples := ks.map (fun k => (k, ov k)) with hsamples
  have hsp : samples.Pairwise (fun a b => a.1 < b.1) := by
    rw [hsamples, List.pairwise_map]
    exact hks
  have hkeys : samples.map Prod.fst = ks := by
    rw [hsamples, List.map_map]
    rw [show (Prod.fst ∘ fun k : Int => (k, ov k)) = id from rfl, List.map_id]
  have hmemkey : ∀ p ∈ samples, p.1 ∈ ks ∧ p.2 = ov p.1 := by
    intro p hp
    rw [hsamples] at hp
    obtain ⟨k, hk, rfl⟩ := List.mem_map.1 hp
    exact ⟨hk, rfl⟩
  have hkeymem : ∀ k ∈ ks, (k, ov k) ∈ samples := by
    intro k hk
    rw [hsamples]
    exact List.mem_map.2 ⟨k, hk, rfl⟩
  have hsel : consSel samples eps =
      consWalk eps (listMinI ks) samples.reverse none := by
    unfold consSel
    rw [mergeSort_desc_eq_reverse samples hsp]
    congr 1
    rw [← hkeys]
  set L := samples.reverse with hL
  have hLdesc : L.Pairwise (fun a b => b.1 < a.1) := List.pairwise_reverse.2 hsp
  have hmemL : ∀ p, p ∈ L ↔ p ∈ samples := fun p => List.mem_reverse
  have hdecomp : L.takeWhile (fun p => decide (p.2 ≤ eps)) ++
      L.dropWhile (fun p => decide (p.2 ≤ eps)) = L :=
    List.takeWhile_append_dropWhile _ _
  set G := L.takeWhile (fun p => decide (p.2 ≤ eps)) with hG
  set R := L.dropWhile (fun p => decide (p.2 ≤ eps)) with hR
  have hGgood : ∀ p ∈ G, p.2 ≤ eps := by
    intro p hp
    have := List.mem_takeWhile_imp hp
    simpa using this
  have hwalk : consSel samples eps =
      consWalk eps (listMinI ks) R
        (match G.getLast? with | some p => some p.1 | none => none) := by
    rw [hsel, ← hdecomp]
    exact consWalk_append_good eps (listMinI ks) G R none hGgood
  have hGsub : ∀ p ∈ G, p ∈ L := by
    intro p hp
    rw [← hdecomp]
    exact List.mem_append_left _ hp
  have hRsub : ∀ p ∈ R, p ∈ L := by
    intro p hp
    rw [← hdecomp]
    exact List.mem_append_right _ hp
  rcases dropWhile_head_bad eps L with hRnil | ⟨b, T, hRcons, hbbad⟩
  · -- every sample is good
    rw [← hR] at hRnil
    have hallgood : ∀ p ∈ L, p.2 ≤ eps := by
      intro p hp
      rw [← hdecomp, hRnil, List.append_nil] at hp
      exact hGgood p hp
    by_cases hkarg : ks = []
    · constructor
      · rintro ⟨κ, hκ, -⟩
        rw [hkarg] at hκ
        exact absurd hκ (List.not_mem_nil κ)
      · intro _
        rw [hwalk]
        have hsnil : samples = [] := by rw [hsamples, hkarg]; rfl
        have hLnil : L = [] := by rw [hL, hsnil]; rfl
        have hGnil : G = [] := by rw [hG, hLnil]; rfl
        rw [hRnil, hGnil]
        rfl
    · have hsne : samples ≠ [] := by
        rw [hsamples]
        intro hc
        exact hkarg (List.map_eq_nil_iff.1 hc)
      have hLne : L ≠ [] := by
        rw [hL]
        intro hc
        exact hsne (List.reverse_eq_nil_iff.1 hc)
      have hGL : G = L := by rw [← hdecomp, hRnil, List.append_nil]
      obtain ⟨g, hg⟩ : ∃ g, G.getLast? = some g := by
        cases hgl : G.getLast? with
        | none => exact absurd (hGL ▸ List.getLast?_eq_none_iff.1 hgl) hLne
        | some g => exact ⟨g, rfl⟩
      have hres : consSel samples eps = listMinI ks := by
        rw [hwalk, hRnil, hg]
        rfl
      obtain ⟨hminmem, hminle⟩ := listMinI_spec ks hkarg
      constructor
      · intro _
        refine ⟨by rw [hres]; exact hminmem, ?_, ?_⟩
        · intro j hj _
          have := hallgood (j, ov j) ((hmemL _).2 (hkeymem j hj))
          simpa using this
        · intro κ hκ _
          rw [hres]
          exact hminle κ hκ
      · intro hnex
        exfalso
        apply hnex
        refine ⟨listMinI ks, hminmem, ?_⟩
        intro j hj _
        have := hallgood (j, ov j) ((hmemL _).2 (hkeymem j hj))
        simpa using this
  · -- there is a bad sample; b is the most positive one
    rw [← hR] at hRcons
    have hbL : b ∈ L := hRsub b (hRcons ▸ List.mem_cons_self _ _)
    obtain ⟨hbks, hbval⟩ := hmemkey b ((hmemL _).1 hbL)
    have hovbad : ¬ ov b.1 ≤ eps := by rw [← hbval]; exact hbbad
    have hsplitpair := (List.pairwise_append.1 (hdecomp ▸ hLdesc : (G ++ R).Pairwise
      (fun a b => b.1 < a.1)))
    have hGR : ∀ p ∈ G, ∀ q ∈ R, q.1 < p.1 := hsplitpair.2.2
    have hRdesc : R.Pairwise (fun a b => b.1 < a.1) := hsplitpair.2.1
    have hTlt : ∀ q ∈ T, q.1 < b.1 := by
      have hbT : (b :: T).Pairwise (fun a c => c.1 < a.1) := by
        rw [← hRcons]; exact hRdesc
      intro q hq
      exact List.rel_of_pairwise_cons hbT hq
    -- any key above b.1 has its sample in G
    have hkeyG : ∀ κ ∈ ks, b.1 < κ → (κ, ov κ) ∈ G := by
      intro κ hκ hgt
      have hmem : (κ, ov κ) ∈ L := (hmemL _).2 (hkeymem κ hκ)
      rw [← hdecomp] at hmem
      rcases List.mem_append.1 hmem with h | h
      · exact h
      · exfalso
        rw [hRcons] at h
        rcases List.mem_cons.1 h with heq | hT
        · have : κ = b.1 := congrArg Prod.fst heq
          omega
        · have := hTlt _ hT
          simp only at this
          omega
    -- no key ≤ b.1 qualifies
    have hnotqual : ∀ κ ∈ ks, (∀ j ∈ ks, κ ≤ j → ov j ≤ eps) → b.1 < κ := by
      intro κ hκ hqual
      by_contra hle
      push_neg at hle
      exact hovbad (hqual b.1 hbks hle)
    rcases List.eq_nil_or_concat G with hGnil | ⟨Gl, g, hGsplit0⟩
    · -- the most positive sample is already bad: result 0, nothing qualifies
      have hres : consSel samples eps = 0 := by
        rw [hwalk, hRcons, hGnil]
        show consWalk eps (listMinI ks) (b :: T) none = 0
        rw [consWalk_bad_cons eps _ b T none hbbad]
        rfl
      have hble : ∀ κ ∈ ks, κ ≤ b.1 := by
        intro κ hκ
        have hmem : (κ, ov κ) ∈ L := (hmemL _).2 (hkeymem κ hκ)
        rw [← hdecomp, hGnil, List.nil_append, hRcons] at hmem
        rcases List.mem_cons.1 hmem with heq | hT
        · have : κ = b.1 := congrArg Prod.fst heq
          omega
        · have := hTlt _ hT
          simp only at this
          omega
      constructor
      · rintro ⟨κ, hκ, hqual⟩
        exfalso
        exact absurd (hble κ hκ) (not_le.2 (hnotqual κ hκ hqual))
      · intro _
        exact hres
    · -- the good block is non-empty; result is its last (most negative) key
      have hGsplit : G = Gl ++ [g] := by rw [hGsplit0, List.concat_eq_append]
      have hglast : G.getLast? = some g := by rw [hGsplit]; exact List.getLast?_concat _
      have hres : consSel samples eps = g.1 := by
        rw [hwalk, hRcons, hglast]
        show consWalk eps (listMinI ks) (b :: T) (some g.1) = g.1
        rw [consWalk_bad_cons eps _ b T (some g.1) hbbad]
        rfl
      have hgG : g ∈ G := by rw [hGsplit]; exact List.mem_append_right _ (List.mem_cons_self _ _)
      have hgL : g ∈ L := hGsub g hgG
      obtain ⟨hgks, hgval⟩ := hmemkey g ((hmemL _).1 hgL)
      have hggood : ov g.1 ≤ eps := by rw [← hgval]; exact hGgood g hgG
      have hgmin : ∀ p ∈ Gl, g.1 < p.1 := by
        have hGp : (Gl ++ [g]).Pairwise (fun a c => c.1 < a.1) := by
          rw [← hGsplit]; exact hsplitpair.1
        have h3 := (List.pairwise_append.1 hGp).2.2
        intro p hp
        exact h3 p hp g (List.mem_cons_self _ _)
      have hqualg : ∀ j ∈ ks, g.1 ≤ j → ov j ≤ eps := by
        intro j hj hle
        rcases eq_or_lt_of_le hle with heq | hlt
        · rw [← heq]; exact hggood
        · -- j > g.1 : its sample is in G (since all of b::T is below g.1)
          have hjG : (j, ov j) ∈ G ∨ (j, ov j) ∈ R := by
            have hmem : (j, ov j) ∈ L := (hmemL _).2 (hkeymem j hj)
            rw [← hdecomp] at hmem
            exact List.mem_append.1 hmem
          rcases hjG with h | h
          · have := hGgood _ h
            simpa using this
          · exfalso
            have := hGR g hgG _ h
            simp only at this
            omega
      constructor
      · intro _
        refine ⟨by rw [hres]; exact hgks, ?_, ?_⟩
        · intro j hj hle
          rw [hres] at hle
          exact hqualg j hj hle
        · intro κ hκ hqual
          rw [hres]
          have hbltκ : b.1 < κ := hnotqual κ hκ hqual
          have hκG : (κ, ov κ) ∈ G := hkeyG κ hκ hbltκ
          rw [hGsplit] at hκG
          rcases List.mem_append.1 hκG with h | h
          · have := hgmin _ h
            simp only at this
            omega
          · rcases List.mem_cons.1 h with heq | habs
            · have : κ = g.1 := congrArg Prod.fst heq
              omega
            · exact absurd habs (List.not_mem_nil _)
      · intro hnex
        exfalso
        exact hnex ⟨g.1, hgks, hqualg⟩



/-- Modelled from the claim's words for C5: the most negative sampled kern
whose own overlap is ≤ EPS, or 0 if no sample qualifies. -/
def mostNegGoodKern (samples : List (Int × ℚ)) (eps : ℚ) : Int :=
  match ((samples.filter (fun p => decide (p.2 ≤ eps))).map (fun p => p.1)).min? with
  | some m => m
  | none => 0

/-- C5 (amended): under the conservative strategy (and outside the
calibration special case) kernPair returns the most negative sampled kern
`k` such that EVERY sample at a kern ≥ `k` has overlap ≤ EPS — the good
sample just below the most positive over-EPS sample — and 0 when no sampled
kern qualifies (in particular when the most positive sample itself exceeds
EPS). It does NOT return the most negative kern whose own overlap is ≤ EPS,
as the claim states. -/
theorem c5_amended_conservative_walk (mexp : ℚ → ℚ) (cfg : Config) (left right : Glyph)
    (minO maxO : ℚ) (kwOpt : Option Nat) (cache : Cache)
    (hstrat : strategyOf cfg = "conservative")
    (hnotcal : ¬ (minO = 0 ∧ maxO = 10000000000)) :
    ∃ k, kernPair mexp cfg left right minO maxO kwOpt cache = some k ∧
      ((∃ κ ∈ ascRange (-cfg.MAX_KERN) cfg.MAX_KERN (max 1 cfg.KERN_STEP),
          ∀ j ∈ ascRange (-cfg.MAX_KERN) cfg.MAX_KERN (max 1 cfg.KERN_STEP), κ ≤ j →
            overlap (blurredPair mexp cfg left right kwOpt cache).1
              (blurredPair mexp cfg left right kwOpt cache).2 j ≤ epsOf cfg) →
        (k ∈ ascRange (-cfg.MAX_KERN) cfg.MAX_KERN (max 1 cfg.KERN_STEP) ∧
         (∀ j ∈ ascRange (-cfg.MAX_KERN) cfg.MAX_KERN (max 1 cfg.KERN_STEP), k ≤ j →
            overlap (blurredPair mexp cfg left right kwOpt cache).1
              (blurredPair mexp cfg left right kwOpt cache).2 j ≤ epsOf cfg) ∧
         (∀ κ ∈ ascRange (-cfg.MAX_KERN) cfg.MAX_KERN (max 1 cfg.KERN_STEP),
            (∀ j ∈ ascRange (-cfg.MAX_KERN) cfg.MAX_KERN (max 1 cfg.KERN_STEP), κ ≤ j →
              overlap (blurredPair mexp cfg left right kwOpt cache).1
                (blurredPair mexp cfg left right kwOpt cache).2 j ≤ epsOf cfg) → k ≤ κ))) ∧
      ((¬ ∃ κ ∈ ascRange (-cfg.MAX_KERN) cfg.MAX_KERN (max 1 cfg.KERN_STEP),
          ∀ j ∈ ascRange (-cfg.MAX_KERN) cfg.MAX_KERN (max 1 cfg.KERN_STEP), κ ≤ j →
            overlap (blurredPair mexp cfg left right kwOpt cache).1
              (blurredPair mexp cfg left right kwOpt cache).2 j ≤ epsOf cfg) → k = 0) := by
  set ov : Int → ℚ := fun k => overlap (blurredPair mexp cfg left right kwOpt cache).1
    (blurredPair mexp cfg left right kwOpt cache).2 k with hov
  set ks := ascRange (-cfg.MAX_KERN) cfg.MAX_KERN (max 1 cfg.KERN_STEP) with hks
  have hpair : ks.Pairwise (· < ·) := ascRange_pairwise _ _ _ (by omega)
  have hrun : kernPair mexp cfg left right minO maxO kwOpt cache =
      some (consSel (ks.map (fun k => (k, ov k))) (epsOf cfg)) := by
    unfold kernPair
    rw [if_neg hnotcal, hstrat, if_neg (by decide), if_pos rfl]
    rfl
  exact ⟨consSel (ks.map (fun k => (k, ov k))) (epsOf cfg), hrun,
    (consSel_char (epsOf cfg) ov ks hpair).1, (consSel_char (epsOf cfg) ov ks hpair).2⟩

/-- A small conservative-strategy configuration for the C5 counterexample. -/
def cfgC5 : Config := { defaultConfig with MAX_KERN := 2, SELECTION_STRATEGY := "conservative" }
/-- A 3-wide glyph with a strong inked column 0: its only over-EPS overlap
with `onePixelGlyph` is at kern 0. -/
def spikeGlyph : Glyph := ⟨3, 1, 0, 0, ⟨3, 1, [2, 0, 0]⟩⟩

/-- C5 counterexample: with samples (kern, overlap) =
(-2, 0), (-1, 0), (0, 4), (1, 0), (2, 0) and EPS = 1, kernPair's
conservative strategy returns kern 1 (the good sample just above the bad one
at 0), while the most negative sample with overlap ≤ EPS is -2; so the claim
that it returns the most negative qualifying kern is false. -/
theorem c5_counterexample :
    kernPair gQ cfgC5 onePixelGlyph spikeGlyph 1 2 (some 1) [] = some 1 ∧
    mostNegGoodKern (kernSamples gQ cfgC5 onePixelGlyph spikeGlyph (some 1) [])
      (epsOf cfgC5) = -2 ∧
    ((1 : Int) ≠ -2) := by
  refine ⟨?_, ?_, by norm_num⟩
  · with_unfolding_all rfl
  · with_unfolding_all rfl


/-- Witness for `c5_amended_conservative_walk` at a concrete input. -/
theorem c5_witness :
    strategyOf cfgC5 = "conservative" ∧ ¬ ((1 : ℚ) = 0 ∧ (2 : ℚ) = 10000000000) ∧
    (∃ k, kernPair gQ cfgC5 onePixelGlyph spikeGlyph 1 2 (some 1) [] = some k ∧
      ((∃ κ ∈ ascRange (-cfgC5.MAX_KERN) cfgC5.MAX_KERN (max 1 cfgC5.KERN_STEP),
          ∀ j ∈ ascRange (-cfgC5.MAX_KERN) cfgC5.MAX_KERN (max 1 cfgC5.KERN_STEP), κ ≤ j →
            overlap (blurredPair gQ cfgC5 onePixelGlyph spikeGlyph (some 1) []).1
              (blurredPair gQ cfgC5 onePixelGlyph spikeGlyph (some 1) []).2 j ≤ epsOf cfgC5) →
        (k ∈ ascRange (-cfgC5.MAX_KERN) cfgC5.MAX_KERN (max 1 cfgC5.KERN_STEP) ∧
         (∀ j ∈ ascRange (-cfgC5.MAX_KERN) cfgC5.MAX_KERN (max 1 cfgC5.KERN_STEP), k ≤ j →
            overlap (blurredPair gQ cfgC5 onePixelGlyph spikeGlyph (some 1) []).1
              (blurredPair gQ cfgC5 onePixelGlyph spikeGlyph (some 1) []).2 j ≤ epsOf cfgC5) ∧
         (∀ κ ∈ ascRange (-cfgC5.MAX_KERN) cfgC5.MAX_KERN (max 1 cfgC5.KERN_STEP),
            (∀ j ∈ ascRange (-cfgC5.MAX_KERN) cfgC5.MAX_KERN (max 1 cfgC5.KERN_STEP), κ ≤ j →
              overlap (blurredPair gQ cfgC5 onePixelGlyph spikeGlyph (some 1) []).1
                (blurredPair gQ cfgC5 onePixelGlyph spikeGlyph (some 1) []).2 j ≤ epsOf cfgC5) →
              k ≤ κ))) ∧
      ((¬ ∃ κ ∈ ascRange (-cfgC5.MAX_KERN) cfgC5.MAX_KERN (max 1 cfgC5.KERN_STEP),
          ∀ j ∈ ascRange (-cfgC5.MAX_KERN) cfgC5.MAX_KERN (max 1 cfgC5.KERN_STEP), κ ≤ j →
            overlap (blurredPair gQ cfgC5 onePixelGlyph spikeGlyph (some 1) []).1
              (blurredPair gQ cfgC5 onePixelGlyph spikeGlyph (some 1) []).2 j ≤ epsOf cfgC5) →
        k = 0)) :=
  ⟨rfl, by norm_num,
    c5_amended_conservative_walk gQ cfgC5 onePixelGlyph spikeGlyph 1 2 (some 1) [] rfl
      (by norm_num)⟩



/-- Values visited by the ascending loop differ from the start by a multiple
of the step. -/
lemma ascRange_dvd (a b s k : Int) (hk : k ∈ ascRange a b s) : s ∣ (k - a) := by
  unfold ascRange at hk
  split at hk
  · obtain ⟨i, -, rfl⟩ := List.mem_map.1 hk
    exact ⟨i, by ring⟩
  · exact absurd hk (List.not_mem_nil k)

/-- Values visited by the descending loop differ from the start by a multiple
of the step. -/
lemma descRange_dvd (a b s k : Int) (hk : k ∈ descRange a b s) : s ∣ (a - k) := by
  unfold descRange at hk
  split at hk
  · obtain ⟨i, -, rfl⟩ := List.mem_map.1 hk
    exact ⟨i, by ring⟩
  · exact absurd hk (List.not_mem_nil k)

/-- Any in-range value congruent to the start modulo the step is visited by
the ascending loop. -/
lemma dvd_mem_ascRange (a b s k : Int) (hs : 1 ≤ s) (hak : a ≤ k) (hkb : k ≤ b)
    (hdvd : s ∣ (k - a)) : k ∈ ascRange a b s := by
  obtain ⟨q, hq⟩ := hdvd
  have hcomm : s * q = q * s := mul_comm s q
  have hq0 : 0 ≤ q := by nlinarith
  unfold ascRange
  rw [if_pos (le_trans hak hkb)]
  refine List.mem_map.2 ⟨q.toNat, ?_, ?_⟩
  · rw [List.mem_range]
    have hsn : 0 < s.toNat := by omega
    have hmul : q.toNat * s.toNat ≤ (b - a).toNat := by
      have h1 : q.toNat * s.toNat = (k - a).toNat := by
        have : ((q.toNat * s.toNat : Nat) : Int) = k - a := by
          push_cast
          rw [Int.toNat_of_nonneg hq0, Int.toNat_of_nonneg (by omega)]
          omega
        omega
      omega
    have := (Nat.le_div_iff_mul_le hsn).2 hmul
    omega
  · have : ((q.toNat : Nat) : Int) = q := Int.toNat_of_nonneg hq0
    rw [this]
    omega

/-- `samples.find(x => x.kernel === kern)` succeeds for any sampled kern. -/
lemma lookupSample_mem (ov : Int → ℚ) (ks : List Int) (k : Int) (hk : k ∈ ks) :
    ∃ s, lookupSample (ks.map (fun j => (j, ov j))) k = some s := by
  have hsome : ((ks.map (fun j => (j, ov j))).find? (fun p => p.1 == k)).isSome := by
    rw [List.find?_isSome]
    exact ⟨(k, ov k), List.mem_map.2 ⟨k, hk, rfl⟩, by simp⟩
  obtain ⟨p, hp⟩ := Option.isSome_iff_exists.1 hsome
  exact ⟨p.2, by unfold lookupSample; rw [hp]; rfl⟩

/-- The midpoint fold returns the accumulator's kern or a sampled kern. -/
lemma midFold_mem (target : ℚ) :
    ∀ (samples : List (Int × ℚ)) (acc : Int × ℚ),
    (samples.foldl (fun a p => if |p.2 - target| < a.2 then (p.1, |p.2 - target|) else a) acc).1
        = acc.1 ∨
    ∃ p ∈ samples,
      (samples.foldl (fun a p => if |p.2 - target| < a.2 then (p.1, |p.2 - target|) else a) acc).1
        = p.1 := by
  intro samples
  induction samples with
  | nil => intro acc; left; rfl
  | cons q rest ih =>
    intro acc
    rw [List.foldl_cons]
    by_cases h : |q.2 - target| < acc.2
    · rw [if_pos h]
      rcases ih (q.1, |q.2 - target|) with heq | ⟨p, hp, hpe⟩
      · right; exact ⟨q, List.mem_cons_self _ _, heq⟩
      · right; exact ⟨p, List.mem_cons_of_mem _ hp, hpe⟩
    · rw [if_neg h]
      rcases ih acc with heq | ⟨p, hp, hpe⟩
      · left; exact heq
      · right; exact ⟨p, List.mem_cons_of_mem _ hp, hpe⟩

/-- If every scanned kern is sampled, the walk either completes or stops at
a scanned kern; the modelled crash cannot occur. -/
lemma scanFirst_char (samples : List (Int × ℚ)) (pred : ℚ → Bool) :
    ∀ (klist : List Int), (∀ k ∈ klist, ∃ s, lookupSample samples k = some s) →
    scanFirst samples pred klist = some none ∨
    ∃ k ∈ klist, scanFirst samples pred klist = some (some k) := by
  intro klist
  induction klist with
  | nil => intro _; left; rfl
  | cons k rest ih =>
    intro hall
    obtain ⟨s, hs⟩ := hall k (List.mem_cons_self _ _)
    unfold scanFirst
    rw [hs]
    by_cases hp : pred s
    · right
      refine ⟨k, List.mem_cons_self _ _, ?_⟩
      simp only [hp, if_pos]
    · rcases ih (fun j hj => hall j (List.mem_cons_of_mem _ hj)) with h | ⟨j, hj, hje⟩
      · left
        simp only [hp, if_neg, Bool.false_eq_true, not_false_iff]
        exact h
      · right
        refine ⟨j, List.mem_cons_of_mem _ hj, ?_⟩
        simp only [hp, if_neg, Bool.false_eq_true, not_false_iff]
        exact hje



/-- The calibrated-default branch once the zero-kern sample is found. -/
lemma calibratedSel_lookup (samples : List (Int × ℚ)) (minO maxO : ℚ) (M S : Int)
    (s0 : ℚ) (hs0 : lookupSample samples 0 = some s0) :
    calibratedSel samples minO maxO M S =
      if minO ≤ s0 ∧ s0 ≤ maxO then some 0
      else if s0 < minO then
        match scanFirst samples (fun s => decide (minO ≤ s)) (descRange (-S) (-M) S) with
        | none => none
        | some (some k) => some k
        | some none => some 0
      else if maxO < s0 then
        match scanFirst samples (fun s => decide (s ≤ maxO)) (ascRange S M S) with
        | none => none
        | some (some k) => some k
        | some none => some 0
      else some 0 := by
  unfold calibratedSel
  rw [hs0]

/-- C9: for every pair of glyphs, bounds, optional kernel width, cache state
and configured strategy string, kernPair returns a value (no crash) and it
lies within `[-MAX_KERN, MAX_KERN]`, provided the configuration is sane:
`MAX_KERN ≥ 0` and the effective step `max(1, KERN_STEP)` divides
`MAX_KERN` (both hold for the defaults), which guarantees the zero-kern
sample needed by the calibrated branch exists. -/
theorem c9_kern_within_bounds (mexp : ℚ → ℚ) (cfg : Config) (left right : Glyph) (minO maxO : ℚ)
    (kwOpt : Option Nat) (cache : Cache) (hM : 0 ≤ cfg.MAX_KERN)
    (hdvd : (max 1 cfg.KERN_STEP) ∣ cfg.MAX_KERN) :
    ∃ k, kernPair mexp cfg left right minO maxO kwOpt cache = some k ∧
      -cfg.MAX_KERN ≤ k ∧ k ≤ cfg.MAX_KERN := by
  set M := cfg.MAX_KERN with hMdef
  set S := max 1 cfg.KERN_STEP with hSdef
  have hS1 : 1 ≤ S := le_max_left _ _
  set bl := (blurredPair mexp cfg left right kwOpt cache).1 with hbl
  set br := (blurredPair mexp cfg left right kwOpt cache).2 with hbr
  set ov : Int → ℚ := fun k => overlap bl br k with hov
  unfold kernPair
  by_cases hcal : (minO = 0 ∧ maxO = 10000000000)
  · rw [if_pos hcal]
    refine ⟨calibBest ov (ascRange (-M) 0 S), rfl, ?_⟩
    rcases calibFold_char ov (ascRange (-M) 0 S) (0, 0)
        (ascRange_pairwise _ _ _ hS1) with ⟨heq, -⟩ | ⟨hmem, -, -, -, -⟩
    · unfold calibBest
      rw [heq]
      constructor
      · show -M ≤ (0 : Int)
        omega
      · show (0 : Int) ≤ M
        omega
    · have hb := ascRange_mem (-M) 0 S hS1 _ hmem
      unfold calibBest
      omega
  · rw [if_neg hcal]
    have hsamp : kernSamples mexp cfg left right kwOpt cache =
        (ascRange (-M) M S).map (fun k => (k, ov k)) := rfl
    have hmemkey : ∀ p ∈ kernSamples mexp cfg left right kwOpt cache,
        -M ≤ p.1 ∧ p.1 ≤ M := by
      intro p hp
      rw [hsamp] at hp
      obtain ⟨k, hk, rfl⟩ := List.mem_map.1 hp
      exact ascRange_mem _ _ _ hS1 _ hk
    by_cases hmid : strategyOf cfg = "midpoint"
    · rw [if_pos hmid]
      have hksne : ascRange (-M) M S ≠ [] := by
        unfold ascRange
        rw [if_pos (by omega)]
        simp
      obtain ⟨p0, rest, hcons⟩ : ∃ p0 rest,
          kernSamples mexp cfg left right kwOpt cache = p0 :: rest := by
        cases hc : kernSamples mexp cfg left right kwOpt cache with
        | nil =>
          rw [hsamp] at hc
          exact absurd (List.map_eq_nil_iff.1 hc) hksne
        | cons p0 rest => exact ⟨p0, rest, rfl⟩
      rw [hcons]
      unfold midpointSel
      refine ⟨_, rfl, ?_⟩
      rcases midFold_mem ((minO + maxO) / 2) (p0 :: rest)
          (p0.1, |p0.2 - (minO + maxO) / 2|) with heq | ⟨p, hp, hpe⟩
      · rw [heq]
        exact hmemkey p0 (by rw [hcons]; exact List.mem_cons_self _ _)
      · rw [hpe]
        exact hmemkey p (by rw [hcons]; exact hp)
    · by_cases hconsv : strategyOf cfg = "conservative"
      · rw [if_neg hmid, if_pos hconsv]
        refine ⟨_, rfl, ?_⟩
        rw [hsamp]
        have hchar := consSel_char (epsOf cfg) ov (ascRange (-M) M S)
          (ascRange_pairwise _ _ _ hS1)
        by_cases hex : ∃ κ ∈ ascRange (-M) M S,
            ∀ j ∈ ascRange (-M) M S, κ ≤ j → ov j ≤ epsOf cfg
        · obtain ⟨hmem, -, -⟩ := hchar.1 hex
          have := ascRange_mem (-M) M S hS1 _ hmem
          omega
        · rw [hchar.2 hex]
          omega
      · rw [if_neg hmid, if_neg hconsv]
        have hdvd' : S ∣ M := hdvd
        have h0 : (0 : Int) ∈ ascRange (-M) M S :=
          dvd_mem_ascRange _ _ _ _ hS1 (by omega) (by omega)
            (by rw [show (0 : Int) - (-M) = M by ring]; exact hdvd')
        obtain ⟨s0, hs0⟩ := lookupSample_mem ov (ascRange (-M) M S) 0 h0
        have hs0' : lookupSample (kernSamples mexp cfg left right kwOpt cache) 0
            = some s0 := by rw [hsamp]; exact hs0
        rw [calibratedSel_lookup _ _ _ _ _ _ hs0']
        by_cases h1 : minO ≤ s0 ∧ s0 ≤ maxO
        · rw [if_pos h1]
          exact ⟨0, rfl, by omega, by omega⟩
        · rw [if_neg h1]
          by_cases h2 : s0 < minO
          · rw [if_pos h2]
            have hall : ∀ k ∈ descRange (-S) (-M) S,
                ∃ s, lookupSample (kernSamples mexp cfg left right kwOpt cache) k
                  = some s := by
              intro k hk
              rw [hsamp]
              have hb := descRange_mem (-S) (-M) S hS1 k hk
              have hd := descRange_dvd (-S) (-M) S k hk
              have hdk : S ∣ k := by
                have h3 : S ∣ (-S - k) := hd
                have h4 : S ∣ (-S - k) + S := dvd_add h3 (dvd_refl S)
                have h5 : S ∣ -k := by
                  rw [show (-S - k) + S = -k by ring] at h4
                  exact h4
                exact (dvd_neg.1 h5)
              refine lookupSample_mem ov _ k (dvd_mem_ascRange _ _ _ _ hS1
                (by omega) (by omega) ?_)
              rw [show k - (-M) = k + M by ring]
              exact dvd_add hdk hdvd'
            rcases scanFirst_char _ (fun s => decide (minO ≤ s)) _ hall with hnone | ⟨k, hk, hke⟩
            · rw [hnone]
              exact ⟨0, rfl, by omega, by omega⟩
            · rw [hke]
              have hb := descRange_mem (-S) (-M) S hS1 k hk
              exact ⟨k, rfl, by omega, by omega⟩
          · rw [if_neg h2]
            by_cases h3 : maxO < s0
            · rw [if_pos h3]
              have hall : ∀ k ∈ ascRange S M S,
                  ∃ s, lookupSample (kernSamples mexp cfg left right kwOpt cache) k
                    = some s := by
                intro k hk
                rw [hsamp]
                have hb := ascRange_mem S M S hS1 k hk
                have hd := ascRange_dvd S M S k hk
                have hdk : S ∣ k := by
                  have h4 : S ∣ (k - S) + S := dvd_add hd (dvd_refl S)
                  rw [show (k - S) + S = k by ring] at h4
                  exact h4
                refine lookupSample_mem ov _ k (dvd_mem_ascRange _ _ _ _ hS1
                  (by omega) (by omega) ?_)
                rw [show k - (-M) = k + M by ring]
                exact dvd_add hdk hdvd'
              rcases scanFirst_char _ (fun s => decide (s ≤ maxO)) _ hall with hnone | ⟨k, hk, hke⟩
              · rw [hnone]
                exact ⟨0, rfl, by omega, by omega⟩
              · rw [hke]
                have hb := ascRange_mem S M S hS1 k hk
                exact ⟨k, rfl, by omega, by omega⟩
            · rw [if_neg h3]
              exact ⟨0, rfl, by omega, by omega⟩


/-- Witness for `c9_kern_within_bounds` at the default configuration. -/
theorem c9_witness :
    0 ≤ defaultConfig.MAX_KERN ∧
    (max 1 defaultConfig.KERN_STEP) ∣ defaultConfig.MAX_KERN ∧
    (∃ k, kernPair gQ defaultConfig zeroGlyph zeroGlyph 3 4 (some 1) [] = some k ∧
      -defaultConfig.MAX_KERN ≤ k ∧ k ≤ defaultConfig.MAX_KERN) :=
  ⟨by decide, ⟨30, by decide⟩,
    c9_kern_within_bounds gQ defaultConfig zeroGlyph zeroGlyph 3 4 (some 1) []
      (by decide) ⟨30, by decide⟩⟩


/-- C10: every kern sampling loop in kernPair terminates for every
configuration, including `KERN_STEP ≤ 0`, because the effective step is
`max(1, KERN_STEP) ≥ 1`: both loop embeddings satisfy their step equations
with a strictly advancing counter, the scan is strictly increasing and
finite with explicit length, and kernPair behaves as if `KERN_STEP` were
already clamped to `max(1, KERN_STEP)`. -/
theorem c10_loops_terminate (rawStep M : Int) (hM : 0 ≤ M) :
    1 ≤ max 1 rawStep ∧
    (∀ a b : Int, ascRange a b (max 1 rawStep) =
      if a ≤ b then a :: ascRange (a + max 1 rawStep) b (max 1 rawStep) else []) ∧
    (∀ a b : Int, descRange a b (max 1 rawStep) =
      if b ≤ a then a :: descRange (a - max 1 rawStep) b (max 1 rawStep) else []) ∧
    (ascRange (-M) M (max 1 rawStep)).Pairwise (· < ·) ∧
    (ascRange (-M) M (max 1 rawStep)).length =
      (2 * M).toNat / (max 1 rawStep).toNat + 1 ∧
    (∀ (mexp : ℚ → ℚ) (cfg : Config) (left right : Glyph) (minO maxO : ℚ)
       (kwOpt : Option Nat) (cache : Cache), cfg.KERN_STEP = rawStep →
       kernPair mexp cfg left right minO maxO kwOpt cache =
         kernPair mexp { cfg with KERN_STEP := max 1 rawStep }
           left right minO maxO kwOpt cache) := by
  have hS1 : 1 ≤ max 1 rawStep := le_max_left _ _
  refine ⟨hS1, fun a b => ascRange_unroll a b _ hS1, fun a b => descRange_unroll a b _ hS1,
    ascRange_pairwise _ _ _ hS1, ?_, ?_⟩
  · unfold ascRange
    rw [if_pos (by omega)]
    rw [List.length_map, List.length_range]
    congr 2
    omega
  · intro mexp cfg left right minO maxO kwOpt cache hks
    apply kernPair_cfg_eq
    · rfl
    · rfl
    · rfl
    · show max 1 cfg.KERN_STEP = max 1 (max 1 rawStep)
      rw [hks]
      exact (max_eq_right (le_max_left _ _)).symm
    · rfl

/-- Witness for `c10_loops_terminate` at the degenerate configured step 0. -/
theorem c10_witness :
    0 ≤ (30 : Int) ∧
    (1 ≤ max 1 (0 : Int) ∧
    (∀ a b : Int, ascRange a b (max 1 (0 : Int)) =
      if a ≤ b then a :: ascRange (a + max 1 (0 : Int)) b (max 1 (0 : Int)) else []) ∧
    (∀ a b : Int, descRange a b (max 1 (0 : Int)) =
      if b ≤ a then a :: descRange (a - max 1 (0 : Int)) b (max 1 (0 : Int)) else []) ∧
    (ascRange (-(30 : Int)) 30 (max 1 (0 : Int))).Pairwise (· < ·) ∧
    (ascRange (-(30 : Int)) 30 (max 1 (0 : Int))).length =
      (2 * (30 : Int)).toNat / (max 1 (0 : Int)).toNat + 1 ∧
    (∀ (mexp : ℚ → ℚ) (cfg : Config) (left right : Glyph) (minO maxO : ℚ)
       (kwOpt : Option Nat) (cache : Cache), cfg.KERN_STEP = 0 →
       kernPair mexp cfg left right minO maxO kwOpt cache =
         kernPair mexp { cfg with KERN_STEP := max 1 (0 : Int) }
           left right minO maxO kwOpt cache)) :=
  ⟨by decide, c10_loops_terminate 0 30 (by decide)⟩



/-- The fixed tuning characters of the calibration loop (`TUNING_CHARS`). -/
def tuningChars : List Char := ['l', 'n', 'o']

/-- The calibration loop's iteration ceiling (`MAX_ITERATIONS`). -/
def MAX_ITERATIONS : Nat := 100

/-- One tuning character's contribution in a findS iteration: render the
glyph (the external rasterizer is the `render` parameter), blur its bitmap
at the current kernel width threading the kernel cache, and take the
self-overlap at kern 0. -/
def selfSStep (mexp : ℚ → ℚ) (cfg : Config) (render : Char → Glyph) (kw : Nat)
    (acc : List ℚ × Cache) (c : Char) : List ℚ × Cache :=
  (acc.1 ++ [overlap
      { render c with bitmap :=
          (gaussianBlur mexp cfg.BLUR_SIGMA_FACTOR (render c).bitmap none (some kw) acc.2).1 }
      { render c with bitmap :=
          (gaussianBlur mexp cfg.BLUR_SIGMA_FACTOR (render c).bitmap none (some kw) acc.2).1 }
      0],
   (gaussianBlur mexp cfg.BLUR_SIGMA_FACTOR (render c).bitmap none (some kw) acc.2).2)

/-- The `ss` list of one findS iteration over all tuning characters. -/
def selfSS (mexp : ℚ → ℚ) (cfg : Config) (render : Char → Glyph) (kw : Nat)
    (cache : Cache) : List ℚ × Cache :=
  tuningChars.foldl (selfSStep mexp cfg render kw) ([], cache)

/-- `Math.min(...)` over the self-overlap list (always 3 elements here). -/
def listMinQ : List ℚ → ℚ
  | [] => 0
  | x :: xs => xs.foldl min x

/-- `Math.max(...)` over the self-overlap list. -/
def listMaxQ : List ℚ → ℚ
  | [] => 0
  | x :: xs => xs.foldl max x

/-- The initial kernel width `Math.round(0.2 * FONT_SIZE)` forced odd. -/
def initKW (fs : Nat) : Nat :=
  if (round ((fs : ℚ) / 5)).toNat % 2 = 0 then (round ((fs : ℚ) / 5)).toNat + 1
  else (round ((fs : ℚ) / 5)).toNat

/-- The findS iteration loop with the remaining iteration budget as fuel:
converge when `minS > maxS / 2`; otherwise grow the kernel width by 2,
returning the last bounds as an ordinary `.ok` triple when the width would
exceed `2 * FONT_SIZE`; `.error` models the `Max iterations exceeded`
throw. -/
def findSAux (mexp : ℚ → ℚ) (cfg : Config) (render : Char → Glyph) :
    Nat → Cache → Nat → Except String (ℚ × ℚ × Nat)
  | _, _, 0 => .error "findS: Max iterations exceeded"
  | kw, cache, fuel + 1 =>
    if listMaxQ (selfSS mexp cfg render kw cache).1 / 2 <
        listMinQ (selfSS mexp cfg render kw cache).1 then
      .ok (listMinQ (selfSS mexp cfg render kw cache).1,
           listMaxQ (selfSS mexp cfg render kw cache).1, kw)
    else if 2 * cfg.FONT_SIZE < kw + 2 then
      .ok (listMinQ (selfSS mexp cfg render kw cache).1,
           listMaxQ (selfSS mexp cfg render kw cache).1, (kw + 2) - 2)
    else findSAux mexp cfg render (kw + 2) (selfSS mexp cfg render kw cache).2 fuel

/-- Calibration (`findS` in generateKerningTable.ts). -/
def findS (mexp : ℚ → ℚ) (cfg : Config) (render : Char → Glyph) (cache : Cache) :
    Except String (ℚ × ℚ × Nat) :=
  findSAux mexp cfg render (initKW cfg.FONT_SIZE) cache MAX_ITERATIONS

/-- The loop body equation of `findSAux` with remaining fuel. -/
lemma findSAux_succ (mexp : ℚ → ℚ) (cfg : Config) (render : Char → Glyph)
    (kw : Nat) (cache : Cache) (fuel : Nat) :
    findSAux mexp cfg render kw cache (fuel + 1) =
      if listMaxQ (selfSS mexp cfg render kw cache).1 / 2 <
          listMinQ (selfSS mexp cfg render kw cache).1 then
        .ok (listMinQ (selfSS mexp cfg render kw cache).1,
             listMaxQ (selfSS mexp cfg render kw cache).1, kw)
      else if 2 * cfg.FONT_SIZE < kw + 2 then
        .ok (listMinQ (selfSS mexp cfg render kw cache).1,
             listMaxQ (selfSS mexp cfg render kw cache).1, (kw + 2) - 2)
      else findSAux mexp cfg render (kw + 2) (selfSS mexp cfg render kw cache).2 fuel := rfl

/-- A tiny font-size configuration making the safety ceiling reachable in
two iterations. -/
def cfgTiny : Config := { defaultConfig with FONT_SIZE := 2 }

/-- A rasterizer whose every glyph carries no ink: self-overlaps are all 0,
so calibration can never converge. -/
def renderZero : Char → Glyph := fun _ => zeroGlyph

/-- A rasterizer rendering a single fully inked pixel for every character. -/
def renderInk : Char → Glyph := fun _ => onePixelGlyph

/-- C2 (amended): when the grown kernel width exceeds `2 * FONT_SIZE` without
the convergence condition holding, findS stops and returns the last computed
bounds with the last tried kernel width as an ORDINARY `.ok (minS, maxS,
kernelWidth)` triple — exactly the shape of a converged result; no
`converged = false` / `CalibrationFailed` value reaches the caller (the code
only prints a console warning). -/
theorem c2_amended_safety_exit (mexp : ℚ → ℚ) (cfg : Config) (render : Char → Glyph)
    (cache : Cache) (kw fuel : Nat)
    (hnc : ¬ (listMaxQ (selfSS mexp cfg render kw cache).1 / 2 <
      listMinQ (selfSS mexp cfg render kw cache).1))
    (hex : 2 * cfg.FONT_SIZE < kw + 2) :
    findSAux mexp cfg render kw cache (fuel + 1) =
      .ok (listMinQ (selfSS mexp cfg render kw cache).1,
           listMaxQ (selfSS mexp cfg render kw cache).1, kw) := by
  rw [findSAux_succ, if_neg hnc, if_pos hex]
  congr 2

/-- C2 counterexample: with a 2-pixel font size and ink-free tuning glyphs
the convergence condition `minS > maxS / 2` fails at every width and the
ceiling `2 * FONT_SIZE = 4` is exceeded at width 5, yet findS returns the
ordinary success value `.ok (0, 0, 3)` rather than any distinct failure
outcome. -/
theorem c2_counterexample :
    findS gQ cfgTiny renderZero [] = .ok (0, 0, 3) ∧
    ¬ ((0 : ℚ) / 2 < 0) ∧ 2 * cfgTiny.FONT_SIZE < 3 + 2 := by
  refine ⟨?_, by norm_num, by decide⟩
  with_unfolding_all rfl

/-- C8: findS starts at `kernelWidth = round(0.2 × fontSize)` forced odd,
computes each tuning character's blurred self-overlap at kern 0, returns
`.ok (minS, maxS, kernelWidth)` as soon as `minS > maxS / 2`, and otherwise
(within the safety ceiling) increases the kernel width by 2 and repeats with
the updated kernel cache. -/
theorem c8_findS_loop (mexp : ℚ → ℚ) (cfg : Config) (render : Char → Glyph)
    (cache : Cache) (kw fuel : Nat) :
    findS mexp cfg render cache =
      findSAux mexp cfg render (initKW cfg.FONT_SIZE) cache MAX_ITERATIONS ∧
    initKW cfg.FONT_SIZE % 2 = 1 ∧
    (initKW cfg.FONT_SIZE = (round ((cfg.FONT_SIZE : ℚ) / 5)).toNat ∨
     initKW cfg.FONT_SIZE = (round ((cfg.FONT_SIZE : ℚ) / 5)).toNat + 1) ∧
    (listMaxQ (selfSS mexp cfg render kw cache).1 / 2 <
        listMinQ (selfSS mexp cfg render kw cache).1 →
      findSAux mexp cfg render kw cache (fuel + 1) =
        .ok (listMinQ (selfSS mexp cfg render kw cache).1,
             listMaxQ (selfSS mexp cfg render kw cache).1, kw)) ∧
    (¬ (listMaxQ (selfSS mexp cfg render kw cache).1 / 2 <
        listMinQ (selfSS mexp cfg render kw cache).1) →
      kw + 2 ≤ 2 * cfg.FONT_SIZE →
      findSAux mexp cfg render kw cache (fuel + 1) =
        findSAux mexp cfg render (kw + 2) (selfSS mexp cfg render kw cache).2 fuel) := by
  refine ⟨rfl, ?_, ?_, ?_, ?_⟩
  · unfold initKW
    by_cases h : (round ((cfg.FONT_SIZE : ℚ) / 5)).toNat % 2 = 0
    · rw [if_pos h]
      omega
    · rw [if_neg h]
      omega
  · unfold initKW
    by_cases h : (round ((cfg.FONT_SIZE : ℚ) / 5)).toNat % 2 = 0
    · rw [if_pos h]
      right
      rfl
    · rw [if_neg h]
      left
      rfl
  · intro hc
    rw [findSAux_succ, if_pos hc]
  · intro hnc hle
    rw [findSAux_succ, if_neg hnc, if_neg (by omega)]



/-- Self-overlaps of the ink-free glyphs at width 3 are all zero. -/
lemma selfSS_zero3 : (selfSS gQ cfgTiny renderZero 3 []).1 = [0, 0, 0] := by
  with_unfolding_all rfl

/-- Self-overlaps of the one-pixel glyphs at width 1 are all one. -/
lemma selfSS_ink1 : (selfSS gQ cfgTiny renderInk 1 []).1 = [1, 1, 1] := by
  with_unfolding_all rfl

/-- Self-overlaps of the ink-free glyphs at width 1 are all zero. -/
lemma selfSS_zero1 : (selfSS gQ cfgTiny renderZero 1 []).1 = [0, 0, 0] := by
  with_unfolding_all rfl

/-- Witness for `c2_amended_safety_exit` at a concrete non-converging run. -/
theorem c2_witness :
    ¬ (listMaxQ (selfSS gQ cfgTiny renderZero 3 []).1 / 2 <
        listMinQ (selfSS gQ cfgTiny renderZero 3 []).1) ∧
    2 * cfgTiny.FONT_SIZE < 3 + 2 ∧
    findSAux gQ cfgTiny renderZero 3 [] (0 + 1) =
      .ok (listMinQ (selfSS gQ cfgTiny renderZero 3 []).1,
           listMaxQ (selfSS gQ cfgTiny renderZero 3 []).1, 3) := by
  have h1 : ¬ (listMaxQ (selfSS gQ cfgTiny renderZero 3 []).1 / 2 <
      listMinQ (selfSS gQ cfgTiny renderZero 3 []).1) := by
    rw [selfSS_zero3]
    norm_num [listMinQ, listMaxQ]
  exact ⟨h1, by decide, c2_amended_safety_exit gQ cfgTiny renderZero [] 3 0 h1 (by decide)⟩

/-- Witness for `c8_findS_loop`: a concrete converging iteration and a
concrete non-converging iteration that steps the kernel width by 2. -/
theorem c8_witness :
    (listMaxQ (selfSS gQ cfgTiny renderInk 1 []).1 / 2 <
        listMinQ (selfSS gQ cfgTiny renderInk 1 []).1 ∧
     findSAux gQ cfgTiny renderInk 1 [] (0 + 1) =
       .ok (listMinQ (selfSS gQ cfgTiny renderInk 1 []).1,
            listMaxQ (selfSS gQ cfgTiny renderInk 1 []).1, 1)) ∧
    (¬ (listMaxQ (selfSS gQ cfgTiny renderZero 1 []).1 / 2 <
        listMinQ (selfSS gQ cfgTiny renderZero 1 []).1) ∧
     1 + 2 ≤ 2 * cfgTiny.FONT_SIZE ∧
     findSAux gQ cfgTiny renderZero 1 [] (0 + 1) =
       findSAux gQ cfgTiny renderZero (1 + 2) (selfSS gQ cfgTiny renderZero 1 []).2 0) := by
  have hc : listMaxQ (selfSS gQ cfgTiny renderInk 1 []).1 / 2 <
      listMinQ (selfSS gQ cfgTiny renderInk 1 []).1 := by
    rw [selfSS_ink1]
    norm_num [listMinQ, listMaxQ]
  have hn : ¬ (listMaxQ (selfSS gQ cfgTiny renderZero 1 []).1 / 2 <
      listMinQ (selfSS gQ cfgTiny renderZero 1 []).1) := by
    rw [selfSS_zero1]
    norm_num [listMinQ, listMaxQ]
  exact ⟨⟨hc, (c8_findS_loop gQ cfgTiny renderInk [] 1 0).2.2.2.1 hc⟩,
    ⟨hn, by decide, (c8_findS_loop gQ cfgTiny renderZero [] 1 0).2.2.2.2 hn (by decide)⟩⟩


end AutoKern
